import Mathlib

/-!
Verification of the distributed PBT coordination layer of
`mnist_pbt_sync.py` (repository DistributedTF).

The Python source is shallowly embedded below.  Machine floats that the
source only uses for exact small fractions (`pop_size / len(rank_devices)`,
`0.2 * n`, `0.8 * n`) are modelled as rationals; Python integers are `Nat`;
Python dicts are modelled either as association lists in insertion order or
as functions into `Option`; the MPI send/receive pairs are modelled by
recording the sent messages and computing each worker's reply as a function
of the (disjoint) population state it owns.
-/

namespace DistributedTF

/-- TensorFlow device hint; the source's `Device = Union[str, None]`. -/
def Device : Type := Option String

instance : DecidableEq Device := by unfold Device; infer_instance

/-- Modelled from the spec: the `ConvNet` model handle lives in `mnist_pbt.py`,
which is not part of the sources under verification; spec section 6 describes
its capability interface (StepCount, opaque parameter value, update history,
accuracy).  The parameter blob type and the update-history record type are
abstracted as one opaque type `V`. -/
structure ConvNet (V : Type) where
  step_num : ℕ
  value : V
  update_history : List V
  accuracy : ℚ
deriving DecidableEq, Repr

/-- Modelled from the spec: how one training step or one explore perturbation
changes a ConvNet's parameter value and accuracy is external to the
coordination layer (spec sections 1 and 6), so it is kept abstract. -/
structure Dynamics (V : Type) where
  train_value : ConvNet V → V
  train_accuracy : ConvNet V → ℚ
  perturb_value : ConvNet V → V
  update_record : ConvNet V → V

/-- Modelled from the spec: `Train()` executes one unit of training work and
increments StepCount by exactly 1 (spec section 6). -/
def ConvNet.train {V : Type} (d : Dynamics V) (g : ConvNet V) : ConvNet V :=
  { g with
    step_num := g.step_num + 1
    value := d.train_value g
    accuracy := d.train_accuracy g }

/-- Modelled from the spec: `SetValue(Blob)` overwrites the parameter
snapshot (spec section 6). -/
def ConvNet.set_value {V : Type} (g : ConvNet V) (v : V) : ConvNet V :=
  { g with value := v }

/-- Modelled from the spec: `Explore()` perturbs the parameters and appends
one entry to UpdateHistory (spec section 6). -/
def ConvNet.explore {V : Type} (d : Dynamics V) (g : ConvNet V) : ConvNet V :=
  { g with
    value := d.perturb_value g
    update_history := g.update_history ++ [d.update_record g] }

/-- The enum `Attribute` of `mnist_pbt_sync.py`: an attribute of a ConvNet
that its Cluster can access remotely. -/
inductive Attribute
  | STEP_NUM
  | VALUE
  | UPDATE_HISTORY
  | ACCURACY
deriving DecidableEq, Repr

/-- An attribute value as it travels in a reply tuple.  Python tuples are
heterogeneous; the embedding wraps each possible component in one sum type. -/
inductive AttrVal (V : Type)
  | nat (n : ℕ)
  | blob (v : V)
  | hist (h : List V)
  | acc (q : ℚ)
deriving DecidableEq, Repr

/-- The `GETTERS` lookup table of `mnist_pbt_sync.py`. -/
def GETTERS {V : Type} (a : Attribute) (g : ConvNet V) : AttrVal V :=
  match a with
  | .STEP_NUM => .nat g.step_num
  | .VALUE => .blob g.value
  | .UPDATE_HISTORY => .hist g.update_history
  | .ACCURACY => .acc g.accuracy

/-- Reads a step count out of an attribute tuple component (Python reads the
component and uses it as an integer; other variants never occur there). -/
def AttrVal.getNat {V : Type} : AttrVal V → ℕ
  | .nat n => n
  | _ => 0

/-- Reads an accuracy out of an attribute tuple component. -/
def AttrVal.getAcc {V : Type} : AttrVal V → ℚ
  | .acc q => q
  | _ => 0

/-- Reads a parameter blob out of an attribute tuple component. -/
def AttrVal.getBlob {V : Type} [Inhabited V] : AttrVal V → V
  | .blob v => v
  | _ => default

/-- First-match association-list lookup, the behaviour of `dict` lookup for
the duplicate-free key lists the source builds. -/
def assocLookup {β : Type} : List (ℕ × β) → ℕ → Option β
  | [], _ => none
  | (k', v) :: rest, k => if k' = k then some v else assocLookup rest k

@[simp]
theorem assocLookup_nil {β : Type} (k : ℕ) : assocLookup ([] : List (ℕ × β)) k = none := rfl

@[simp]
theorem assocLookup_cons {β : Type} (k' : ℕ) (v : β) (rest : List (ℕ × β)) (k : ℕ) :
    assocLookup ((k', v) :: rest) k = if k' = k then some v else assocLookup rest k := rfl

/-- The one-time setup message `(device, start_num, graph_num)` that
`Cluster.__init__` isends to a worker, together with its addressee rank. -/
structure SetupMsg where
  rank : ℕ
  device : Device
  start_num : ℕ
  end_num : ℕ
deriving DecidableEq

/-- The coordinator-side routing state a `Cluster` records at construction:
`pop_size`, the worker→indices table `rank_graphs` (an insertion-ordered
dict in Python) and the index→worker table `graph_ranks` (a Python list). -/
structure ClusterState where
  pop_size : ℕ
  rank_graphs : List (ℕ × List ℕ)
  graph_ranks : List ℕ
deriving DecidableEq

/-- The loop state of the partition loop in `Cluster.__init__`:
`graph_num`, `graphs_to_make`, and the three accumulating tables. -/
structure BuildState where
  graph_num : ℕ
  graphs_to_make : ℚ
  rank_graphs : List (ℕ × List ℕ)
  graph_ranks : List ℕ
  msgs : List SetupMsg

/-- One iteration of the partition loop in `Cluster.__init__` (lines 123-130):
accumulate the fractional share, cut the next half-open range
`[start_num, graph_num)` by rounding the accumulated share up and clamping at
`pop_size`, record it in both tables, record the setup send, and carry the
remainder forward.  `Int.toNat` bridges the mathematical ceiling to the
non-negative value Python's `math.ceil` returns here. -/
def buildStep (pop_size : ℕ) (graphs_per_worker : ℚ) (st : BuildState) (rd : ℕ × Device) :
    BuildState :=
  let gtm := st.graphs_to_make + graphs_per_worker
  let start_num := st.graph_num
  let graph_num := min (start_num + (⌈gtm⌉).toNat) pop_size
  { graph_num := graph_num
    graphs_to_make := gtm - ((graph_num - start_num : ℕ) : ℚ)
    rank_graphs := st.rank_graphs ++ [(rd.1, List.range' start_num (graph_num - start_num))]
    graph_ranks := st.graph_ranks ++ List.replicate (graph_num - start_num) rd.1
    msgs := st.msgs ++ [⟨rd.1, rd.2, start_num, graph_num⟩] }

/-- `Cluster.__init__` of `mnist_pbt_sync.py` (partition and setup sends):
given `pop_size` and the ordered worker→device table, run the partition loop
and return the recorded routing state together with the setup messages sent
(one isend per worker, then a joined wait). -/
def mkCluster (pop_size : ℕ) (rank_devices : List (ℕ × Device)) :
    ClusterState × List SetupMsg :=
  let graphs_per_worker : ℚ := (pop_size : ℚ) / (rank_devices.length : ℚ)
  let st := rank_devices.foldl (buildStep pop_size graphs_per_worker) ⟨0, 0, [], [], []⟩
  (⟨pop_size, st.rank_graphs, st.graph_ranks⟩, st.msgs)

/-- The boundary the partition loop reaches after `i` workers:
the ceiling of `i` times the fractional share `pop_size / W`. -/
def partStart (pop_size W i : ℕ) : ℕ :=
  (⌈(i : ℚ) * ((pop_size : ℚ) / (W : ℚ))⌉).toNat

theorem partStart_cast (pop_size W i : ℕ) :
    ((partStart pop_size W i : ℕ) : ℤ) = ⌈(i : ℚ) * ((pop_size : ℚ) / (W : ℚ))⌉ := by
  have h : (0 : ℚ) ≤ (i : ℚ) * ((pop_size : ℚ) / (W : ℚ)) := by positivity
  exact Int.toNat_of_nonneg (Int.ceil_nonneg h)

@[simp]
theorem partStart_zero (pop_size W : ℕ) : partStart pop_size W 0 = 0 := by
  simp [partStart]

theorem partStart_mono (pop_size W : ℕ) {i j : ℕ} (h : i ≤ j) :
    partStart pop_size W i ≤ partStart pop_size W j := by
  have hs : (0 : ℚ) ≤ (pop_size : ℚ) / (W : ℚ) := by positivity
  have hc : ⌈(i : ℚ) * ((pop_size : ℚ) / (W : ℚ))⌉ ≤ ⌈(j : ℚ) * ((pop_size : ℚ) / (W : ℚ))⌉ := by
    apply Int.ceil_le_ceil
    apply mul_le_mul_of_nonneg_right _ hs
    exact_mod_cast h
  have := partStart_cast pop_size W i
  have := partStart_cast pop_size W j
  omega

theorem partStart_W (pop_size W : ℕ) (hW : 1 ≤ W) : partStart pop_size W W = pop_size := by
  have hWQ : ((W : ℚ)) ≠ 0 := by
    have : W ≠ 0 := by omega
    exact_mod_cast this
  have h : (W : ℚ) * ((pop_size : ℚ) / (W : ℚ)) = (pop_size : ℚ) := by
    field_simp
  unfold partStart
  rw [h]
  simp

theorem partStart_le (pop_size W : ℕ) (hW : 1 ≤ W) {i : ℕ} (h : i ≤ W) :
    partStart pop_size W i ≤ pop_size := by
  have := partStart_mono pop_size W h
  rw [partStart_W pop_size W hW] at this
  exact this

/-- The worker→range table the partition loop produces, described directly:
worker number `i` (0-based, in `rank_devices` order) receives the half-open
range from `partStart i` to `partStart (i+1)`. -/
def specRankGraphs (p W : ℕ) : ℕ → List (ℕ × Device) → List (ℕ × List ℕ)
  | _, [] => []
  | i, rd :: rest =>
    (rd.1, List.range' (partStart p W i) (partStart p W (i + 1) - partStart p W i)) ::
      specRankGraphs p W (i + 1) rest

/-- The index→worker table the partition loop produces, described directly. -/
def specGraphRanks (p W : ℕ) : ℕ → List (ℕ × Device) → List ℕ
  | _, [] => []
  | i, rd :: rest =>
    List.replicate (partStart p W (i + 1) - partStart p W i) rd.1 ++
      specGraphRanks p W (i + 1) rest

/-- The setup messages the partition loop sends, described directly. -/
def specMsgs (p W : ℕ) : ℕ → List (ℕ × Device) → List SetupMsg
  | _, [] => []
  | i, rd :: rest =>
    ⟨rd.1, rd.2, partStart p W i, partStart p W (i + 1)⟩ :: specMsgs p W (i + 1) rest

theorem buildStep_boundary (p W i : ℕ) (hW : 1 ≤ W) (hi : i + 1 ≤ W) :
    min (partStart p W i +
        (⌈(i : ℚ) * ((p : ℚ) / (W : ℚ)) - (partStart p W i : ℚ) + (p : ℚ) / (W : ℚ)⌉).toNat) p =
      partStart p W (i + 1) := by
  have hmono : partStart p W i ≤ partStart p W (i + 1) := partStart_mono p W (by omega)
  have hle := partStart_le p W hW hi
  have hcast_i := partStart_cast p W i
  have hcast_si := partStart_cast p W (i + 1)
  have harg : (i : ℚ) * ((p : ℚ) / (W : ℚ)) - (partStart p W i : ℚ) + (p : ℚ) / (W : ℚ) =
      ((i + 1 : ℕ) : ℚ) * ((p : ℚ) / (W : ℚ)) - ((partStart p W i : ℤ) : ℚ) := by
    push_cast
    ring
  rw [harg, Int.ceil_sub_int, ← hcast_si]
  omega

theorem buildStep_carry (p W i : ℕ) (hmono : partStart p W i ≤ partStart p W (i + 1)) :
    (i : ℚ) * ((p : ℚ) / (W : ℚ)) - (partStart p W i : ℚ) + (p : ℚ) / (W : ℚ) -
        ((partStart p W (i + 1) - partStart p W i : ℕ) : ℚ) =
      ((i + 1 : ℕ) : ℚ) * ((p : ℚ) / (W : ℚ)) - (partStart p W (i + 1) : ℚ) := by
  rw [Nat.cast_sub hmono]
  push_cast
  ring

theorem build_fold (p W : ℕ) (hW : 1 ≤ W) :
    ∀ (rest : List (ℕ × Device)) (i : ℕ), i + rest.length ≤ W →
    ∀ (rg : List (ℕ × List ℕ)) (gr : List ℕ) (ms : List SetupMsg),
    rest.foldl (buildStep p ((p : ℚ) / (W : ℚ)))
        ⟨partStart p W i, (i : ℚ) * ((p : ℚ) / (W : ℚ)) - (partStart p W i : ℚ), rg, gr, ms⟩ =
      ⟨partStart p W (i + rest.length),
       ((i + rest.length : ℕ) : ℚ) * ((p : ℚ) / (W : ℚ)) -
         (partStart p W (i + rest.length) : ℚ),
       rg ++ specRankGraphs p W i rest,
       gr ++ specGraphRanks p W i rest,
       ms ++ specMsgs p W i rest⟩ := by
  intro rest
  induction rest with
  | nil =>
    intro i hi rg gr ms
    simp [specRankGraphs, specGraphRanks, specMsgs]
  | cons rd rest ih =>
    intro i hi rg gr ms
    have hi1 : i + 1 ≤ W := by
      simp only [List.length_cons] at hi
      omega
    have hstep :
        buildStep p ((p : ℚ) / (W : ℚ))
            ⟨partStart p W i, (i : ℚ) * ((p : ℚ) / (W : ℚ)) - (partStart p W i : ℚ), rg, gr, ms⟩
            rd =
          ⟨partStart p W (i + 1),
           ((i + 1 : ℕ) : ℚ) * ((p : ℚ) / (W : ℚ)) - (partStart p W (i + 1) : ℚ),
           rg ++ [(rd.1, List.range' (partStart p W i) (partStart p W (i + 1) - partStart p W i))],
           gr ++ List.replicate (partStart p W (i + 1) - partStart p W i) rd.1,
           ms ++ [⟨rd.1, rd.2, partStart p W i, partStart p W (i + 1)⟩]⟩ := by
      have hb := buildStep_boundary p W i hW hi1
      have hmono := partStart_mono p W (Nat.le_succ i)
      have hc := buildStep_carry p W i hmono
      simp only [buildStep, hb, hc]
    rw [List.foldl_cons, hstep]
    have harith : (i + 1) + rest.length = i + (rd :: rest).length := by
      simp only [List.length_cons]
      omega
    have hrec := ih (i + 1) (by simp only [List.length_cons] at hi; omega)
      (rg ++ [(rd.1, List.range' (partStart p W i) (partStart p W (i + 1) - partStart p W i))])
      (gr ++ List.replicate (partStart p W (i + 1) - partStart p W i) rd.1)
      (ms ++ [⟨rd.1, rd.2, partStart p W i, partStart p W (i + 1)⟩])
    rw [hrec, harith]
    simp [specRankGraphs, specGraphRanks, specMsgs]

theorem mkCluster_eq (p : ℕ) (devs : List (ℕ × Device)) (hW : 1 ≤ devs.length) :
    mkCluster p devs =
      (⟨p, specRankGraphs p devs.length 0 devs, specGraphRanks p devs.length 0 devs⟩,
       specMsgs p devs.length 0 devs) := by
  have h := build_fold p devs.length hW devs 0 (by omega) [] [] []
  have hinit : (⟨0, 0, [], [], []⟩ : BuildState) =
      ⟨partStart p devs.length 0,
       ((0 : ℕ) : ℚ) * ((p : ℚ) / (devs.length : ℚ)) - (partStart p devs.length 0 : ℚ),
       [], [], []⟩ := by
    simp
  unfold mkCluster
  rw [hinit]
  simp only [h]
  simp

@[simp]
theorem specMsgs_length (p W : ℕ) : ∀ (i : ℕ) (l : List (ℕ × Device)),
    (specMsgs p W i l).length = l.length := by
  intro i l
  induction l generalizing i with
  | nil => rfl
  | cons rd rest ih => simp [specMsgs, ih]

theorem specMsgs_getD (p W : ℕ) (dm : SetupMsg) :
    ∀ (l : List (ℕ × Device)) (i t : ℕ), t < l.length →
    (specMsgs p W i l).getD t dm =
      ⟨(l.getD t (0, none)).1, (l.getD t (0, none)).2,
       partStart p W (i + t), partStart p W (i + t + 1)⟩ := by
  intro l
  induction l with
  | nil => intro i t ht; simp at ht
  | cons rd rest ih =>
    intro i t ht
    match t with
    | 0 => simp [specMsgs]
    | t + 1 =>
      have ht' : t < rest.length := by simp at ht; omega
      have := ih (i + 1) t ht'
      simp only [specMsgs, List.getD_cons_succ]
      rw [this]
      have h1 : i + 1 + t = i + (t + 1) := by omega
      rw [h1]

/-- Existence of a covering segment in a monotone sequence of boundaries. -/
theorem exists_segment (f : ℕ → ℕ) (W n : ℕ)
    (_hmono : ∀ i j, i ≤ j → f i ≤ f j) (h0 : f 0 ≤ n) (hW : n < f W) :
    ∃ i, i < W ∧ f i ≤ n ∧ n < f (i + 1) := by
  induction W with
  | zero => omega
  | succ W ih =>
    by_cases h : n < f W
    · obtain ⟨i, hi, h1, h2⟩ := ih h
      exact ⟨i, by omega, h1, h2⟩
    · exact ⟨W, by omega, by omega, hW⟩

theorem partStart_size_le (p W i : ℕ) :
    (partStart p W (i + 1) : ℤ) - (partStart p W i : ℤ) ≤ ⌈(p : ℚ) / (W : ℚ)⌉ := by
  rw [partStart_cast, partStart_cast]
  set s : ℚ := (p : ℚ) / (W : ℚ) with hs
  have hsplit : ((i + 1 : ℕ) : ℚ) * s = (i : ℚ) * s + s := by push_cast; ring
  rw [hsplit]
  have h : (i : ℚ) * s + s ≤ ((⌈(i : ℚ) * s⌉ + ⌈s⌉ : ℤ) : ℚ) := by
    push_cast
    exact add_le_add (Int.le_ceil _) (Int.le_ceil _)
  have := Int.ceil_le.mpr h
  omega

theorem partStart_size_ge (p W i : ℕ) :
    ⌊(p : ℚ) / (W : ℚ)⌋ ≤ (partStart p W (i + 1) : ℤ) - (partStart p W i : ℤ) := by
  rw [partStart_cast, partStart_cast]
  set s : ℚ := (p : ℚ) / (W : ℚ) with hs
  have hsplit : ((i + 1 : ℕ) : ℚ) * s = (i : ℚ) * s + s := by push_cast; ring
  rw [hsplit]
  have h : (i : ℚ) * s + ((⌊s⌋ : ℤ) : ℚ) ≤ (i : ℚ) * s + s :=
    add_le_add_left (Int.floor_le _) _
  have h2 : ⌈(i : ℚ) * s + ((⌊s⌋ : ℤ) : ℚ)⌉ ≤ ⌈(i : ℚ) * s + s⌉ := Int.ceil_le_ceil h
  rw [Int.ceil_add_int] at h2
  omega

/-- Any two consecutive-boundary range sizes differ by at most one. -/
theorem partStart_size_gap (p W i j : ℕ) :
    partStart p W (i + 1) - partStart p W i ≤ (partStart p W (j + 1) - partStart p W j) + 1 := by
  have h1 := partStart_size_le p W i
  have h2 := partStart_size_ge p W j
  have h3 := Int.ceil_le_floor_add_one ((p : ℚ) / (W : ℚ))
  have h4 : partStart p W i ≤ partStart p W (i + 1) := partStart_mono p W (by omega)
  have h5 : partStart p W j ≤ partStart p W (j + 1) := partStart_mono p W (by omega)
  omega

/-- Claim C1: for every pop_size ≥ 0 and every ordered worker set of size
W ≥ 1, the partition computed at Cluster construction assigns each worker (in
worker order) a contiguous half-open range of population indices; the ranges
are pairwise disjoint, ordered by worker order, their union is exactly
[0, pop_size), and the largest range size exceeds the smallest by at most 1
(ranges may be empty when pop_size < W). -/
theorem cluster_partition_correct (p : ℕ) (devs : List (ℕ × Device))
    (hW : 1 ≤ devs.length) :
    (mkCluster p devs).2.length = devs.length ∧
    (∀ i, i < devs.length →
      ((mkCluster p devs).2.getD i ⟨0, none, 0, 0⟩).rank = (devs.getD i (0, none)).1 ∧
      ((mkCluster p devs).2.getD i ⟨0, none, 0, 0⟩).start_num ≤
        ((mkCluster p devs).2.getD i ⟨0, none, 0, 0⟩).end_num) ∧
    ((mkCluster p devs).2.getD 0 ⟨0, none, 0, 0⟩).start_num = 0 ∧
    ((mkCluster p devs).2.getD (devs.length - 1) ⟨0, none, 0, 0⟩).end_num = p ∧
    (∀ i, i + 1 < devs.length →
      ((mkCluster p devs).2.getD i ⟨0, none, 0, 0⟩).end_num =
        ((mkCluster p devs).2.getD (i + 1) ⟨0, none, 0, 0⟩).start_num) ∧
    (∀ i j, i < j → j < devs.length →
      ((mkCluster p devs).2.getD i ⟨0, none, 0, 0⟩).end_num ≤
        ((mkCluster p devs).2.getD j ⟨0, none, 0, 0⟩).start_num) ∧
    (∀ n, n < p ↔ ∃ i, i < devs.length ∧
      ((mkCluster p devs).2.getD i ⟨0, none, 0, 0⟩).start_num ≤ n ∧
      n < ((mkCluster p devs).2.getD i ⟨0, none, 0, 0⟩).end_num) ∧
    (∀ i j, i < devs.length → j < devs.length →
      ((mkCluster p devs).2.getD i ⟨0, none, 0, 0⟩).end_num -
        ((mkCluster p devs).2.getD i ⟨0, none, 0, 0⟩).start_num ≤
      (((mkCluster p devs).2.getD j ⟨0, none, 0, 0⟩).end_num -
        ((mkCluster p devs).2.getD j ⟨0, none, 0, 0⟩).start_num) + 1) := by
  have hmk := mkCluster_eq p devs hW
  have hmsg : (mkCluster p devs).2 = specMsgs p devs.length 0 devs := by rw [hmk]
  have hget : ∀ t, t < devs.length →
      (mkCluster p devs).2.getD t ⟨0, none, 0, 0⟩ =
        ⟨(devs.getD t (0, none)).1, (devs.getD t (0, none)).2,
         partStart p devs.length t, partStart p devs.length (t + 1)⟩ := by
    intro t ht
    rw [hmsg, specMsgs_getD p devs.length ⟨0, none, 0, 0⟩ devs 0 t ht]
    simp
  have hgetR : ∀ t, t < devs.length →
      ((mkCluster p devs).2.getD t ⟨0, none, 0, 0⟩).rank = (devs.getD t (0, none)).1 := by
    intro t ht; rw [hget t ht]
  have hgetS : ∀ t, t < devs.length →
      ((mkCluster p devs).2.getD t ⟨0, none, 0, 0⟩).start_num = partStart p devs.length t := by
    intro t ht; rw [hget t ht]
  have hgetE : ∀ t, t < devs.length →
      ((mkCluster p devs).2.getD t ⟨0, none, 0, 0⟩).end_num =
        partStart p devs.length (t + 1) := by
    intro t ht; rw [hget t ht]
  refine ⟨?_, ?_, ?_, ?_, ?_, ?_, ?_, ?_⟩
  · rw [hmsg]; simp
  · intro i hi
    rw [hgetR i hi, hgetS i hi, hgetE i hi]
    exact ⟨rfl, partStart_mono p devs.length (by omega)⟩
  · rw [hgetS 0 (by omega)]
    simp
  · rw [hgetE (devs.length - 1) (by omega)]
    have h : devs.length - 1 + 1 = devs.length := by omega
    rw [h, partStart_W p devs.length hW]
  · intro i hi
    rw [hgetE i (by omega), hgetS (i + 1) (by omega)]
  · intro i j hij hj
    rw [hgetE i (by omega), hgetS j (by omega)]
    exact partStart_mono p devs.length (by omega)
  · intro n
    constructor
    · intro hn
      obtain ⟨i, hi, h1, h2⟩ := exists_segment (partStart p devs.length) devs.length n
        (fun i j h => partStart_mono p devs.length h) (by simp)
        (by rw [partStart_W p devs.length hW]; exact hn)
      refine ⟨i, hi, ?_, ?_⟩
      · rw [hgetS i hi]; exact h1
      · rw [hgetE i hi]; exact h2
    · rintro ⟨i, hi, h1, h2⟩
      rw [hgetS i hi] at h1
      rw [hgetE i hi] at h2
      have := partStart_le p devs.length hW (show i + 1 ≤ devs.length by omega)
      omega
  · intro i j hi hj
    rw [hgetS i hi, hgetE i hi, hgetS j hj, hgetE j hj]
    exact partStart_size_gap p devs.length i j

/-- Witness for C1 at pop_size 7 over three workers. -/
theorem cluster_partition_correct_witness :
    1 ≤ ([(1, none), (2, none), (3, none)] : List (ℕ × Device)).length ∧
    ((mkCluster 7 [(1, none), (2, none), (3, none)]).2.getD 0 ⟨0, none, 0, 0⟩).start_num = 0 :=
  ⟨by decide,
   (cluster_partition_correct 7 [(1, none), (2, none), (3, none)] (by decide)).2.2.1⟩

/-- The list of indices a worker rank owns, read from the coordinator's
`rank_graphs` table (`self.rank_graphs[rank]`). -/
def clusterOwned (cl : ClusterState) (rank : ℕ) : List ℕ :=
  (assocLookup cl.rank_graphs rank).getD []

/-- The reply dict a worker builds for a `Get` (and for the read-and-reply
tail of a `CopyTrainGet`): one entry per requested index, mapping it to the
tuple of requested attribute values in attribute order.  The worker can only
answer for indices it owns (`graphs[num]` on an unowned index is a `KeyError`
that never occurs in the protocol; it is modelled as an absent entry). -/
def workerReplyDict {V : Type} (owned : List ℕ) (pop : ℕ → ConvNet V)
    (nums : List ℕ) (attribute_ids : List Attribute) : ℕ → Option (List (AttrVal V)) :=
  fun n =>
    if n ∈ nums ∧ n ∈ owned then some (attribute_ids.map fun a => GETTERS a (pop n)) else none

/-- Python's `attributes_dict.update(reply)` over the replies in receive
order, starting from the empty dict. -/
def dictMerge {T : Type} (replies : List (ℕ → Option T)) : ℕ → Option T :=
  replies.foldl (fun dict r => fun n => match r n with | some t => some t | none => dict n)
    (fun _ => none)

theorem dictMerge_go_none {T : Type} (n : ℕ) :
    ∀ (rs : List (ℕ → Option T)) (d : ℕ → Option T), (∀ r ∈ rs, r n = none) →
    (rs.foldl (fun dict r => fun m => match r m with | some t => some t | none => dict m) d) n =
      d n := by
  intro rs
  induction rs with
  | nil => intro d _; rfl
  | cons r rs ih =>
    intro d h
    have hr : r n = none := h r (by simp)
    have := ih (fun m => match r m with | some t => some t | none => d m)
      (fun r' hr' => h r' (by simp [hr']))
    rw [List.foldl_cons, this]
    simp [hr]

theorem dictMerge_go_some {T : Type} (n : ℕ) (v : T) :
    ∀ (rs : List (ℕ → Option T)) (d : ℕ → Option T),
    (∀ r ∈ rs, r n = none ∨ r n = some v) → (∃ r ∈ rs, r n = some v) →
    (rs.foldl (fun dict r => fun m => match r m with | some t => some t | none => dict m) d) n =
      some v := by
  intro rs
  induction rs with
  | nil => intro d _ hex; simp at hex
  | cons r rs ih =>
    intro d hall hex
    by_cases hrest : ∃ r' ∈ rs, r' n = some v
    · exact ih _ (fun r' hr' => hall r' (by simp [hr'])) hrest
    · have hnone : ∀ r' ∈ rs, r' n = none := by
        intro r' hr'
        rcases hall r' (by simp [hr']) with h | h
        · exact h
        · exact absurd ⟨r', hr', h⟩ hrest
      have hr : r n = some v := by
        rcases hex with ⟨r', hr', hv⟩
        rcases List.mem_cons.mp hr' with rfl | hmem
        · exact hv
        · exact absurd ⟨r', hmem, hv⟩ hrest
      rw [List.foldl_cons, dictMerge_go_none n rs _ hnone]
      simp [hr]

theorem dictMerge_some {T : Type} (rs : List (ℕ → Option T)) (n : ℕ) (v : T)
    (hall : ∀ r ∈ rs, r n = none ∨ r n = some v) (hex : ∃ r ∈ rs, r n = some v) :
    dictMerge rs n = some v :=
  dictMerge_go_some n v rs _ hall hex

/-- One step of the grouping loop of `get_attributes` for an explicit index
list: append the index to its rank's entry, or add a new entry at the end
(Python dict insertion order). -/
def insertGrouped : List (ℕ × List ℕ) → ℕ → ℕ → List (ℕ × List ℕ)
  | [], rank, num => [(rank, [num])]
  | (r, l) :: rest, rank, num =>
    if r = rank then (r, l ++ [num]) :: rest else (r, l) :: insertGrouped rest rank num

/-- The grouping loop of `get_attributes` (lines 230-236): partition the
requested indices by owning rank, preserving request order within a rank. -/
def buildRankGraphs (graph_ranks : List ℕ) (nums : List ℕ) : List (ℕ × List ℕ) :=
  nums.foldl (fun acc num => insertGrouped acc (graph_ranks.getD num 0) num) []

theorem insertGrouped_preserves {acc : List (ℕ × List ℕ)} {r m : ℕ}
    (h : ∃ e ∈ acc, e.1 = r ∧ m ∈ e.2) (rank num : ℕ) :
    ∃ e ∈ insertGrouped acc rank num, e.1 = r ∧ m ∈ e.2 := by
  induction acc with
  | nil => simp at h
  | cons e0 rest ih =>
    obtain ⟨e, he, h1, h2⟩ := h
    match e0 with
    | (r0, l0) =>
      rcases List.mem_cons.mp he with rfl | hmem
      · by_cases hr : r0 = rank
        · exact ⟨(r0, l0 ++ [num]), by simp [insertGrouped, hr], h1, by simp [h2]⟩
        · exact ⟨(r0, l0), by simp [insertGrouped, hr], h1, h2⟩
      · by_cases hr : r0 = rank
        · exact ⟨e, by simp [insertGrouped, hr, hmem], h1, h2⟩
        · obtain ⟨e', he', h1', h2'⟩ := ih ⟨e, hmem, h1, h2⟩
          exact ⟨e', by simp [insertGrouped, hr]; right; exact he', h1', h2'⟩

theorem insertGrouped_adds (acc : List (ℕ × List ℕ)) (rank num : ℕ) :
    ∃ e ∈ insertGrouped acc rank num, e.1 = rank ∧ num ∈ e.2 := by
  induction acc with
  | nil => exact ⟨(rank, [num]), by simp [insertGrouped], rfl, by simp⟩
  | cons e0 rest ih =>
    match e0 with
    | (r0, l0) =>
      by_cases hr : r0 = rank
      · exact ⟨(r0, l0 ++ [num]), by simp [insertGrouped, hr], hr, by simp⟩
      · obtain ⟨e', he', h1', h2'⟩ := ih
        exact ⟨e', by simp [insertGrouped, hr]; right; exact he', h1', h2'⟩

theorem buildRankGraphs_mem (graph_ranks : List ℕ) (nums : List ℕ) {n : ℕ} (hn : n ∈ nums) :
    ∃ e ∈ buildRankGraphs graph_ranks nums, e.1 = graph_ranks.getD n 0 ∧ n ∈ e.2 := by
  unfold buildRankGraphs
  have main : ∀ (l : List ℕ) (acc : List (ℕ × List ℕ)),
      (n ∈ l ∨ ∃ e ∈ acc, e.1 = graph_ranks.getD n 0 ∧ n ∈ e.2) →
      ∃ e ∈ l.foldl (fun acc num => insertGrouped acc (graph_ranks.getD num 0) num) acc,
        e.1 = graph_ranks.getD n 0 ∧ n ∈ e.2 := by
    intro l
    induction l with
    | nil =>
      intro acc h
      rcases h with h | h
      · simp at h
      · exact h
    | cons m rest ih =>
      intro acc h
      rw [List.foldl_cons]
      apply ih
      rcases h with h | h
      · rcases List.mem_cons.mp h with rfl | hmem
        · exact Or.inr (insertGrouped_adds acc _ n)
        · exact Or.inl hmem
      · exact Or.inr (insertGrouped_preserves h _ m)
  exact main nums [] (Or.inl hn)

theorem specGraphRanks_getD (p W : ℕ) :
    ∀ (l : List (ℕ × Device)) (i j : ℕ), j < l.length →
    ∀ n, partStart p W (i + j) ≤ n → n < partStart p W (i + j + 1) →
    (specGraphRanks p W i l).getD (n - partStart p W i) 0 = (l.getD j (0, none)).1 := by
  intro l
  induction l with
  | nil => intro i j hj; simp at hj
  | cons rd rest ih =>
    intro i j hj n h1 h2
    match j with
    | 0 =>
      simp only [Nat.add_zero] at h1 h2
      have hlt : n - partStart p W i < partStart p W (i + 1) - partStart p W i := by
        have := partStart_mono p W (show i ≤ i + 1 by omega)
        omega
      rw [specGraphRanks, List.getD_append _ _ _ _ (by simpa using hlt)]
      simp [List.getD_eq_getElem?_getD, List.getElem?_replicate, hlt]
    | t + 1 =>
      have hmono1 : partStart p W i ≤ partStart p W (i + 1) :=
        partStart_mono p W (by omega)
      have hmono2 : partStart p W (i + 1) ≤ partStart p W (i + (t + 1)) :=
        partStart_mono p W (by omega)
      have hge : partStart p W (i + 1) - partStart p W i ≤ n - partStart p W i := by omega
      rw [specGraphRanks, List.getD_append_right _ _ _ _ (by simpa using hge)]
      have hidx : n - partStart p W i -
          (List.replicate (partStart p W (i + 1) - partStart p W i) rd.1).length =
          n - partStart p W (i + 1) := by
        simp only [List.length_replicate]
        omega
      rw [hidx]
      have ha : i + 1 + t = i + (t + 1) := by omega
      have := ih (i + 1) t (by simpa using hj) n (by rw [ha]; exact h1) (by rw [ha]; exact h2)
      simpa using this

theorem specRankGraphs_lookup (p W : ℕ) :
    ∀ (l : List (ℕ × Device)) (i j : ℕ), j < l.length → (l.map Prod.fst).Nodup →
    assocLookup (specRankGraphs p W i l) ((l.getD j (0, none)).1) =
      some (List.range' (partStart p W (i + j))
        (partStart p W (i + j + 1) - partStart p W (i + j))) := by
  intro l
  induction l with
  | nil => intro i j hj; simp at hj
  | cons rd rest ih =>
    intro i j hj hnd
    rw [List.map_cons, List.nodup_cons] at hnd
    match j with
    | 0 =>
      simp [specRankGraphs]
    | t + 1 =>
      have ht : t < rest.length := by simpa using hj
      have hne : rd.1 ≠ (rest.getD t (0, none)).1 := by
        intro heq
        apply hnd.1
        rw [heq]
        rw [List.getD_eq_getElem _ _ ht]
        exact List.mem_map_of_mem Prod.fst (List.getElem_mem ht)
      have ha : i + 1 + t = i + (t + 1) := by omega
      rw [specRankGraphs, List.getD_cons_succ]
      rw [assocLookup_cons, if_neg hne]
      have := ih (i + 1) t ht hnd.2
      rw [ha] at this
      exact this

/-- At a well-formed construction, every population index is a member of the
owned-index list of the rank its `graph_ranks` entry names. -/
theorem mkCluster_owned (p : ℕ) (devs : List (ℕ × Device)) (hW : 1 ≤ devs.length)
    (hnd : (devs.map Prod.fst).Nodup) {n : ℕ} (hn : n < p) :
    n ∈ clusterOwned (mkCluster p devs).1 ((mkCluster p devs).1.graph_ranks.getD n 0) := by
  have hmk := mkCluster_eq p devs hW
  obtain ⟨j, hj, h1, h2⟩ := exists_segment (partStart p devs.length) devs.length n
    (fun i j h => partStart_mono p devs.length h) (by simp)
    (by rw [partStart_W p devs.length hW]; exact hn)
  have hgr : (mkCluster p devs).1.graph_ranks.getD n 0 = (devs.getD j (0, none)).1 := by
    rw [hmk]
    have := specGraphRanks_getD p devs.length devs 0 j hj n (by simpa using h1) (by simpa using h2)
    simpa using this
  rw [hgr]
  have hlk := specRankGraphs_lookup p devs.length devs 0 j hj hnd
  simp only [Nat.zero_add] at hlk
  have hcl : clusterOwned (mkCluster p devs).1 ((devs.getD j (0, none)).1) =
      List.range' (partStart p devs.length j)
        (partStart p devs.length (j + 1) - partStart p devs.length j) := by
    unfold clusterOwned
    rw [hmk]
    simp only
    rw [hlk]
    rfl
  rw [hcl, List.mem_range'_1]
  have := partStart_mono p devs.length (Nat.le_succ j)
  omega

/-- `Cluster.get_attributes` of `mnist_pbt_sync.py`: partition the requested
indices by owning worker (or use the construction-time table when the index
list is omitted), ask each involved worker with one `Get`, merge the reply
dicts, and list the merged tuples back in request order. -/
def get_attributes {V : Type} (cl : ClusterState) (pop : ℕ → ConvNet V)
    (attribute_ids : List Attribute) (graph_nums : Option (List ℕ)) :
    List (List (AttrVal V)) :=
  let nums := graph_nums.getD (List.range cl.pop_size)
  let rank_graphs :=
    match graph_nums with
    | none => cl.rank_graphs
    | some ns => buildRankGraphs cl.graph_ranks ns
  let merged := dictMerge (rank_graphs.map fun rg =>
    workerReplyDict (clusterOwned cl rg.1) pop rg.2 attribute_ids)
  nums.map fun n => (merged n).getD []

theorem specRankGraphs_mem (p W : ℕ) :
    ∀ (l : List (ℕ × Device)) (i j : ℕ), j < l.length →
    ((l.getD j (0, none)).1,
      List.range' (partStart p W (i + j)) (partStart p W (i + j + 1) - partStart p W (i + j))) ∈
      specRankGraphs p W i l := by
  intro l
  induction l with
  | nil => intro i j hj; simp at hj
  | cons rd rest ih =>
    intro i j hj
    match j with
    | 0 =>
      simp [specRankGraphs]
    | t + 1 =>
      have ht : t < rest.length := by simpa using hj
      have ha : i + 1 + t = i + (t + 1) := by omega
      have := ih (i + 1) t ht
      rw [ha] at this
      rw [specRankGraphs, List.getD_cons_succ]
      exact List.mem_cons_of_mem _ this

/-- All dict entries a worker reply can contribute for index `n` agree. -/
theorem workerReplyDict_cases {V : Type} (owned : List ℕ) (pop : ℕ → ConvNet V)
    (nums : List ℕ) (attribute_ids : List Attribute) (n : ℕ) :
    workerReplyDict owned pop nums attribute_ids n = none ∨
    workerReplyDict owned pop nums attribute_ids n =
      some (attribute_ids.map fun a => GETTERS a (pop n)) := by
  unfold workerReplyDict
  by_cases h : n ∈ nums ∧ n ∈ owned
  · right; rw [if_pos h]
  · left; rw [if_neg h]

/-- Collapse of the fan-out/fan-in of a full-population query round: the
merged reply dict holds, at every population index, exactly the attribute
tuple of that index's current state. -/
theorem dictMerge_full (p : ℕ) (devs : List (ℕ × Device)) (hW : 1 ≤ devs.length)
    (hnd : (devs.map Prod.fst).Nodup) {V : Type} (pop : ℕ → ConvNet V)
    (attribute_ids : List Attribute) {n : ℕ} (hn : n < p) :
    dictMerge ((mkCluster p devs).1.rank_graphs.map fun rg =>
      workerReplyDict (clusterOwned (mkCluster p devs).1 rg.1) pop rg.2 attribute_ids) n =
      some (attribute_ids.map fun a => GETTERS a (pop n)) := by
  apply dictMerge_some
  · intro r hr
    rcases List.mem_map.mp hr with ⟨rg, _, rfl⟩
    exact workerReplyDict_cases _ pop _ attribute_ids n
  · obtain ⟨j, hj, h1, h2⟩ := exists_segment (partStart p devs.length) devs.length n
      (fun i j h => partStart_mono p devs.length h) (by simp)
      (by rw [partStart_W p devs.length hW]; exact hn)
    have hmem : ((devs.getD j (0, none)).1,
        List.range' (partStart p devs.length j)
          (partStart p devs.length (j + 1) - partStart p devs.length j)) ∈
        (mkCluster p devs).1.rank_graphs := by
      rw [mkCluster_eq p devs hW]
      have := specRankGraphs_mem p devs.length devs 0 j hj
      simpa using this
    refine ⟨_, List.mem_map_of_mem _ hmem, ?_⟩
    have howned : n ∈ clusterOwned (mkCluster p devs).1 ((devs.getD j (0, none)).1) := by
      have hlk := specRankGraphs_lookup p devs.length devs 0 j hj hnd
      simp only [Nat.zero_add] at hlk
      unfold clusterOwned
      rw [mkCluster_eq p devs hW]
      simp only
      rw [hlk]
      rw [Option.getD_some, List.mem_range'_1]
      have := partStart_mono p devs.length (Nat.le_succ j)
      omega
    have hin : n ∈ List.range' (partStart p devs.length j)
        (partStart p devs.length (j + 1) - partStart p devs.length j) := by
      rw [List.mem_range'_1]
      have := partStart_mono p devs.length (Nat.le_succ j)
      omega
    exact if_pos ⟨hin, howned⟩

/-- Collapse of the fan-out/fan-in of a query over an explicit index list. -/
theorem dictMerge_subset (p : ℕ) (devs : List (ℕ × Device)) (hW : 1 ≤ devs.length)
    (hnd : (devs.map Prod.fst).Nodup) {V : Type} (pop : ℕ → ConvNet V)
    (attribute_ids : List Attribute) (nums : List ℕ) {n : ℕ} (hn : n ∈ nums) (hnp : n < p) :
    dictMerge ((buildRankGraphs (mkCluster p devs).1.graph_ranks nums).map fun rg =>
      workerReplyDict (clusterOwned (mkCluster p devs).1 rg.1) pop rg.2 attribute_ids) n =
      some (attribute_ids.map fun a => GETTERS a (pop n)) := by
  apply dictMerge_some
  · intro r hr
    rcases List.mem_map.mp hr with ⟨rg, _, rfl⟩
    exact workerReplyDict_cases _ pop _ attribute_ids n
  · obtain ⟨e, he, h1, h2⟩ :=
      buildRankGraphs_mem (mkCluster p devs).1.graph_ranks nums hn
    refine ⟨_, List.mem_map_of_mem _ he, ?_⟩
    have howned : n ∈ clusterOwned (mkCluster p devs).1 e.1 := by
      rw [h1]
      exact mkCluster_owned p devs hW hnd hnp
    exact if_pos ⟨h2, howned⟩

/-- Claim C5: for every requested attribute list and every list of valid
population indices (any permutation of any subset), `get_attributes` returns
exactly one tuple per requested index, in request order, each tuple listing
the attribute values in requested-attribute order; with the index list
omitted it does the same for the full population in ascending index order. -/
theorem get_attributes_correct (p : ℕ) (devs : List (ℕ × Device)) (hW : 1 ≤ devs.length)
    (hnd : (devs.map Prod.fst).Nodup) {V : Type} (pop : ℕ → ConvNet V)
    (attribute_ids : List Attribute) (nums : List ℕ) (hnums : ∀ n ∈ nums, n < p) :
    get_attributes (mkCluster p devs).1 pop attribute_ids (some nums) =
      nums.map (fun n => attribute_ids.map fun a => GETTERS a (pop n)) ∧
    get_attributes (mkCluster p devs).1 pop attribute_ids none =
      (List.range p).map (fun n => attribute_ids.map fun a => GETTERS a (pop n)) := by
  have hpop : (mkCluster p devs).1.pop_size = p := by
    rw [mkCluster_eq p devs hW]
  constructor
  · unfold get_attributes
    simp only [Option.getD_some]
    apply List.map_congr_left
    intro n hn
    rw [dictMerge_subset p devs hW hnd pop attribute_ids nums hn (hnums n hn)]
    rfl
  · unfold get_attributes
    simp only [hpop]
    apply List.map_congr_left
    intro n hn
    rw [dictMerge_full p devs hW hnd pop attribute_ids (List.mem_range.mp hn)]
    rfl

/-- Witness for C5: two workers, population 3, the reordered subset [2, 0]. -/
theorem get_attributes_correct_witness :
    (1 ≤ ([(1, none), (2, none)] : List (ℕ × Device)).length ∧
      (([(1, none), (2, none)] : List (ℕ × Device)).map Prod.fst).Nodup ∧
      (∀ n ∈ [2, 0], n < 3)) ∧
    get_attributes (mkCluster 3 [(1, none), (2, none)]).1
        (fun n => ⟨0, n, [], (n : ℚ)⟩) [Attribute.STEP_NUM, Attribute.ACCURACY] (some [2, 0]) =
      [2, 0].map (fun n =>
        [Attribute.STEP_NUM, Attribute.ACCURACY].map fun a =>
          GETTERS a ((fun n => (⟨0, n, [], (n : ℚ)⟩ : ConvNet ℕ)) n)) :=
  ⟨⟨by decide, by decide, by decide⟩,
   (get_attributes_correct 3 [(1, none), (2, none)] (by decide) (by decide)
      (fun n => ⟨0, n, [], (n : ℚ)⟩) [Attribute.STEP_NUM, Attribute.ACCURACY] [2, 0]
      (by decide)).1⟩

/-- One comparison step of the best-accuracy scan in
`Cluster.get_highest_metric_graph`: the first index wins, and afterwards only
a strictly greater accuracy replaces the running best. -/
def bestStep (g : ℕ → ℚ) (best : Option (ℕ × ℚ)) (num : ℕ) : Option (ℕ × ℚ) :=
  match best with
  | none => some (num, g num)
  | some (bn, ba) => if g num > ba then some (num, g num) else some (bn, ba)

/-- `Cluster.get_highest_metric_graph` of `mnist_pbt_sync.py`: read all
accuracies, scan for the best index, fetch that index's parameter value from
its owning worker with a single `Get`, and return a freshly constructed
handle loaded with it.  `fresh num` stands for `ConvNet(num, self.sess)`. -/
def get_highest_metric_graph {V : Type} [Inhabited V] (fresh : ℕ → ConvNet V)
    (cl : ClusterState) (pop : ℕ → ConvNet V) : ConvNet V :=
  let attributes := get_attributes cl pop [Attribute.ACCURACY] none
  let accOf : ℕ → ℚ := fun num => ((attributes.getD num []).getD 0 (.acc 0)).getAcc
  let best := (List.range cl.pop_size).foldl (bestStep accOf) none
  let best_num := (best.map Prod.fst).getD 0
  let graph := fresh best_num
  let best_rank := cl.graph_ranks.getD best_num 0
  let reply := workerReplyDict (clusterOwned cl best_rank) pop [best_num] [Attribute.VALUE]
  graph.set_value (((reply best_num).getD []).getD 0 (.blob default)).getBlob

theorem bestFold_spec (g : ℕ → ℚ) :
    ∀ (k : ℕ), 1 ≤ k →
    ∃ b, (List.range k).foldl (bestStep g) none = some (b, g b) ∧ b < k ∧
      (∀ m, m < k → g m ≤ g b) ∧ (∀ m, m < k → g m = g b → b ≤ m) := by
  intro k
  induction k with
  | zero => omega
  | succ k ih =>
    intro _
    match k, ih with
    | 0, _ =>
      refine ⟨0, ?_, by omega, ?_, ?_⟩
      · simp [List.range_succ, bestStep]
      · intro m hm
        have : m = 0 := by omega
        rw [this]
      · intro m _ _
        omega
    | k + 1, ih =>
      obtain ⟨b, hfold, hb, hmax, htie⟩ := ih (by omega)
      rw [List.range_succ, List.foldl_append, hfold]
      simp only [List.foldl_cons, List.foldl_nil, bestStep]
      by_cases hgt : g (k + 1) > g b
      · rw [if_pos hgt]
        refine ⟨k + 1, rfl, by omega, ?_, ?_⟩
        · intro m hm
          rcases Nat.lt_succ_iff_lt_or_eq.mp hm with h | rfl
          · exact le_of_lt (lt_of_le_of_lt (hmax m h) hgt)
          · exact le_refl _
        · intro m hm heq
          rcases Nat.lt_succ_iff_lt_or_eq.mp hm with h | rfl
          · exact absurd heq (ne_of_lt (lt_of_le_of_lt (hmax m h) hgt))
          · exact le_refl _
      · rw [if_neg hgt]
        refine ⟨b, rfl, by omega, ?_, ?_⟩
        · intro m hm
          rcases Nat.lt_succ_iff_lt_or_eq.mp hm with h | rfl
          · exact hmax m h
          · exact le_of_not_lt hgt
        · intro m hm heq
          rcases Nat.lt_succ_iff_lt_or_eq.mp hm with h | rfl
          · exact htie m h heq
          · omega

theorem getD_map_range {α : Type} (f : ℕ → α) (p n : ℕ) (d : α) (hn : n < p) :
    ((List.range p).map f).getD n d = f n := by
  have hlen : n < ((List.range p).map f).length := by simpa using hn
  rw [List.getD_eq_getElem _ _ hlen]
  simp

/-- Claim C6: for every population of size ≥ 1, `get_highest_metric_graph`
returns a freshly constructed handle loaded with the parameter value of an
index achieving the maximum accuracy; on ties the lowest such index wins
(index-ascending scan with a strict greater-than comparison). -/
theorem get_highest_metric_graph_correct (p : ℕ) (devs : List (ℕ × Device))
    (hW : 1 ≤ devs.length) (hnd : (devs.map Prod.fst).Nodup) {V : Type} [Inhabited V]
    (fresh : ℕ → ConvNet V) (pop : ℕ → ConvNet V) (hp : 1 ≤ p) :
    ∃ b, b < p ∧
      (∀ m, m < p → (pop m).accuracy ≤ (pop b).accuracy) ∧
      (∀ m, m < p → (pop m).accuracy = (pop b).accuracy → b ≤ m) ∧
      get_highest_metric_graph fresh (mkCluster p devs).1 pop =
        (fresh b).set_value ((pop b).value) := by
  have hpop : (mkCluster p devs).1.pop_size = p := by
    rw [mkCluster_eq p devs hW]
  have hattr : get_attributes (mkCluster p devs).1 pop [Attribute.ACCURACY] none =
      (List.range p).map fun n => [AttrVal.acc (pop n).accuracy] := by
    rw [(get_attributes_correct p devs hW hnd pop [Attribute.ACCURACY] [] (by simp)).2]
    rfl
  obtain ⟨b, hfold, hb, hmax, htie⟩ := bestFold_spec
    (fun num =>
      ((((List.range p).map fun n => [AttrVal.acc (pop n).accuracy]).getD num
        ([] : List (AttrVal V))).getD 0 (AttrVal.acc 0)).getAcc) p hp
  have hacc : ∀ n, n < p →
      ((((List.range p).map fun n => [AttrVal.acc (pop n).accuracy]).getD n
        ([] : List (AttrVal V))).getD 0 (AttrVal.acc 0)).getAcc = (pop n).accuracy := by
    intro n hn
    rw [getD_map_range _ p n ([] : List (AttrVal V)) hn]
    rfl
  refine ⟨b, hb, ?_, ?_, ?_⟩
  · intro m hm
    have h1 := hacc m hm
    have h2 := hacc b hb
    have := hmax m hm
    rw [h1, h2] at this
    exact this
  · intro m hm h
    apply htie m hm
    rw [hacc m hm, hacc b hb]
    exact h
  · unfold get_highest_metric_graph
    simp only [hpop, hattr, hfold, Option.map_some', Option.getD_some]
    have hrep : workerReplyDict
        (clusterOwned (mkCluster p devs).1 ((mkCluster p devs).1.graph_ranks.getD b 0)) pop
        [b] [Attribute.VALUE] b =
        some ([Attribute.VALUE].map fun a => GETTERS a (pop b)) := by
      unfold workerReplyDict
      exact if_pos ⟨by simp, mkCluster_owned p devs hW hnd hb⟩
    rw [hrep]
    rfl

/-- Witness for C6 at population 3 over two workers, accuracies 0, 1, 2. -/
theorem get_highest_metric_graph_correct_witness :
    (1 ≤ ([(1, none), (2, none)] : List (ℕ × Device)).length ∧ 1 ≤ 3) ∧
    (∃ b, b < 3 ∧
      (∀ m, m < 3 → ((fun n => (⟨0, n, [], (n : ℚ)⟩ : ConvNet ℕ)) m).accuracy ≤
        ((fun n => (⟨0, n, [], (n : ℚ)⟩ : ConvNet ℕ)) b).accuracy) ∧
      (∀ m, m < 3 → ((fun n => (⟨0, n, [], (n : ℚ)⟩ : ConvNet ℕ)) m).accuracy =
        ((fun n => (⟨0, n, [], (n : ℚ)⟩ : ConvNet ℕ)) b).accuracy → b ≤ m) ∧
      get_highest_metric_graph (fun _ => ⟨0, 0, [], 0⟩) (mkCluster 3 [(1, none), (2, none)]).1
          (fun n => ⟨0, n, [], (n : ℚ)⟩) =
        ((fun _ => (⟨0, 0, [], 0⟩ : ConvNet ℕ)) b).set_value
          (((fun n => (⟨0, n, [], (n : ℚ)⟩ : ConvNet ℕ)) b).value)) :=
  ⟨⟨by decide, by decide⟩,
   get_highest_metric_graph_correct 3 [(1, none), (2, none)] (by decide) (by decide)
     (fun _ => ⟨0, 0, [], 0⟩) (fun n => ⟨0, n, [], (n : ℚ)⟩) (by decide)⟩

theorem ceil_fifth (n : ℕ) : ⌈(0.2 : ℚ) * (n : ℚ)⌉₊ = (n + 4) / 5 := by
  have h02 : (0.2 : ℚ) * (n : ℚ) = (n : ℚ) / 5 := by norm_num; ring
  rw [h02]
  rcases Nat.eq_zero_or_pos n with rfl | hn
  · simp
  · have hm : ((n + 4) / 5 : ℕ) ≠ 0 := by omega
    rw [Nat.ceil_eq_iff hm]
    constructor
    · rw [lt_div_iff₀ (by norm_num : (0 : ℚ) < 5)]
      have hlt : ((n + 4) / 5 - 1) * 5 < n := by
        have h1 : 5 * ((n + 4) / 5) ≤ n + 4 := Nat.mul_div_le _ _
        have h2 : 1 ≤ (n + 4) / 5 := by omega
        omega
      exact_mod_cast hlt
    · rw [div_le_iff₀ (by norm_num : (0 : ℚ) < 5)]
      have hle : n ≤ ((n + 4) / 5) * 5 := by
        have h1 : n + 4 < 5 * ((n + 4) / 5 + 1) := Nat.lt_mul_div_succ _ (by omega)
        omega
      exact_mod_cast hle

theorem floor_four_fifths (n : ℕ) : ⌊(0.8 : ℚ) * (n : ℚ)⌋₊ = 4 * n / 5 := by
  have h08 : (0.8 : ℚ) * (n : ℚ) = ((4 * n : ℕ) : ℚ) / (5 : ℕ) := by push_cast; norm_num; ring
  rw [h08, Nat.floor_div_nat, Nat.floor_natCast]

theorem getD_take {α : Type} (l : List α) (k i : ℕ) (d : α) (hik : i < k) (hil : i < l.length) :
    (l.take k).getD i d = l.getD i d := by
  have h : i < (l.take k).length := by simp [List.length_take]; omega
  rw [List.getD_eq_getElem _ _ h, List.getD_eq_getElem _ _ hil]
  exact List.getElem_take l

theorem getD_drop {α : Type} (l : List α) (m i : ℕ) (d : α) (h : m + i < l.length) :
    (l.drop m).getD i d = l.getD (m + i) d := by
  have hlen : i < (l.drop m).length := by simp [List.length_drop]; omega
  rw [List.getD_eq_getElem _ _ hlen, List.getD_eq_getElem _ _ h]
  exact List.getElem_drop l

theorem getD_map {α β : Type} (f : α → β) (l : List α) (i : ℕ) (d : β) (d' : α)
    (h : i < l.length) :
    (l.map f).getD i d = f (l.getD i d') := by
  have hlen : i < (l.map f).length := by simpa using h
  rw [List.getD_eq_getElem _ _ hlen, List.getD_eq_getElem _ _ h]
  exact List.getElem_map f

/-- `Cluster._exploit_and_or_explore` of `mnist_pbt_sync.py`: if the
population has more than one member, rank all indices by ascending accuracy
(`attributes[num][1]`; Python's stable `sorted` is embedded as insertion sort
with a non-strict key comparison, which computes the same stable ranking),
slice off the bottom `ceil(0.2*pop_size)` and the top part from position
`floor(0.8*pop_size)`, fetch the top slice's parameter values through
`get_attributes`, and pair them positionally into the replacement dict
(association list in Python dict insertion order).  The float products
`0.2*len` and `0.8*len` are modelled as exact rationals. -/
def exploit_and_or_explore {V : Type} [Inhabited V] (cl : ClusterState)
    (pop : ℕ → ConvNet V) (attributes : List (List (AttrVal V))) : List (ℕ × V) :=
  if cl.pop_size > 1 then
    let accOf : ℕ → ℚ := fun num => ((attributes.getD num []).getD 1 (AttrVal.acc 0)).getAcc
    let ranked_nums := List.insertionSort (fun a b => accOf a ≤ accOf b) (List.range cl.pop_size)
    let worst_nums := ranked_nums.take ⌈(0.2 : ℚ) * (ranked_nums.length : ℚ)⌉₊
    let best_nums := ranked_nums.drop ⌊(0.8 : ℚ) * (ranked_nums.length : ℚ)⌋₊
    let best_attributes := get_attributes cl pop [Attribute.VALUE] (some best_nums)
    (List.range worst_nums.length).map fun i =>
      (worst_nums.getD i 0, ((best_attributes.getD i []).getD 0 (AttrVal.blob default)).getBlob)
  else []

theorem mkCluster_pop_size (p : ℕ) (devs : List (ℕ × Device)) :
    (mkCluster p devs).1.pop_size = p := rfl

/-- A population of at most one member never exploits: the replacement dict
is empty. -/
theorem exploit_empty {V : Type} [Inhabited V] (q : ℕ) (devs' : List (ℕ × Device))
    (pop' : ℕ → ConvNet V) (attrs' : List (List (AttrVal V))) (hq : q ≤ 1) :
    exploit_and_or_explore (mkCluster q devs').1 pop' attrs' = [] := by
  unfold exploit_and_or_explore
  rw [if_neg (by rw [mkCluster_pop_size]; omega)]

/-- The ranking the exploit step computes over encoded (StepCount, Accuracy)
attribute tuples, written against the raw accuracy list. -/
def rankedOf (p : ℕ) (sa : List (ℕ × ℚ)) : List ℕ :=
  List.insertionSort (fun a b => (sa.getD a (0, 0)).2 ≤ (sa.getD b (0, 0)).2) (List.range p)

/-- Closed form of the exploit step for pop_size > 1: the returned dict pairs
position `i` of the ascending-accuracy ranking with the parameter value at
position `pop_size - ceil(0.2*pop_size) + i`. -/
theorem exploit_eq (p : ℕ) (devs : List (ℕ × Device))
    (hW : 1 ≤ devs.length) (hnd : (devs.map Prod.fst).Nodup) {V : Type} [Inhabited V]
    (pop : ℕ → ConvNet V) (sa : List (ℕ × ℚ)) (hlen : sa.length = p) (hp : 1 < p) :
    exploit_and_or_explore (mkCluster p devs).1 pop
        (sa.map fun t => [AttrVal.nat t.1, AttrVal.acc t.2]) =
      (List.range ⌈(0.2 : ℚ) * (p : ℚ)⌉₊).map fun i =>
        ((rankedOf p sa).getD i 0,
         (pop ((rankedOf p sa).getD (p - ⌈(0.2 : ℚ) * (p : ℚ)⌉₊ + i) 0)).value) := by
  have haccpt : ∀ num, (((sa.map fun t => [AttrVal.nat t.1, AttrVal.acc t.2]).getD num
      ([] : List (AttrVal V))).getD 1 (AttrVal.acc 0)).getAcc = (sa.getD num (0, 0)).2 := by
    intro num
    by_cases hnum : num < sa.length
    · rw [getD_map _ sa num ([] : List (AttrVal V)) (0, 0) hnum]
      rfl
    · have houter : (sa.map fun t => [AttrVal.nat t.1, AttrVal.acc t.2]).getD num
          ([] : List (AttrVal V)) = [] :=
        List.getD_eq_default _ _ (by simpa using hnum)
      rw [houter, List.getD_eq_default _ _ (show sa.length ≤ num by omega)]
      rfl
  have hrel : (fun a b =>
      (((sa.map fun t => [AttrVal.nat t.1, AttrVal.acc t.2]).getD a
        ([] : List (AttrVal V))).getD 1 (AttrVal.acc 0)).getAcc ≤
      (((sa.map fun t => [AttrVal.nat t.1, AttrVal.acc t.2]).getD b
        ([] : List (AttrVal V))).getD 1 (AttrVal.acc 0)).getAcc) =
      (fun a b => (sa.getD a (0, 0)).2 ≤ (sa.getD b (0, 0)).2) := by
    funext a b
    rw [haccpt a, haccpt b]
  have hperm : (rankedOf p sa).Perm (List.range p) := List.perm_insertionSort _ _
  have hkval : ⌈(0.2 : ℚ) * (p : ℚ)⌉₊ = (p + 4) / 5 := ceil_fifth p
  have hkle : ⌈(0.2 : ℚ) * (p : ℚ)⌉₊ ≤ p := by rw [hkval]; omega
  have hlenR : (rankedOf p sa).length = p := by
    rw [rankedOf, List.length_insertionSort, List.length_range]
  have hmemR : ∀ n ∈ rankedOf p sa, n < p := fun n hn =>
    List.mem_range.mp (hperm.mem_iff.mp hn)
  unfold exploit_and_or_explore
  rw [if_pos (by rw [mkCluster_pop_size]; omega)]
  simp only [mkCluster_pop_size, hrel]
  rw [show List.insertionSort (fun a b => (sa.getD a (0, 0)).2 ≤ (sa.getD b (0, 0)).2)
    (List.range p) = rankedOf p sa from rfl]
  rw [hlenR]
  have hfloor : ⌊(0.8 : ℚ) * (p : ℚ)⌋₊ = p - ⌈(0.2 : ℚ) * (p : ℚ)⌉₊ := by
    rw [floor_four_fifths, hkval]
    omega
  rw [hfloor]
  have hbmem : ∀ n ∈ (rankedOf p sa).drop (p - ⌈(0.2 : ℚ) * (p : ℚ)⌉₊), n < p := fun n hn =>
    hmemR n ((List.drop_sublist _ _).mem hn)
  have hbattr : get_attributes (mkCluster p devs).1 pop [Attribute.VALUE]
      (some ((rankedOf p sa).drop (p - ⌈(0.2 : ℚ) * (p : ℚ)⌉₊))) =
      ((rankedOf p sa).drop (p - ⌈(0.2 : ℚ) * (p : ℚ)⌉₊)).map fun n =>
        [AttrVal.blob (pop n).value] :=
    (get_attributes_correct p devs hW hnd pop [Attribute.VALUE] _ hbmem).1
  rw [hbattr]
  have hwlen : ((rankedOf p sa).take ⌈(0.2 : ℚ) * (p : ℚ)⌉₊).length =
      ⌈(0.2 : ℚ) * (p : ℚ)⌉₊ := by
    rw [List.length_take, hlenR]
    omega
  rw [hwlen]
  apply List.map_congr_left
  intro i hi
  have hik : i < ⌈(0.2 : ℚ) * (p : ℚ)⌉₊ := List.mem_range.mp hi
  have hip : i < (rankedOf p sa).length := by omega
  have hdk : p - ⌈(0.2 : ℚ) * (p : ℚ)⌉₊ + i < (rankedOf p sa).length := by omega
  have h1 : ((rankedOf p sa).take ⌈(0.2 : ℚ) * (p : ℚ)⌉₊).getD i 0 =
      (rankedOf p sa).getD i 0 := getD_take _ _ i 0 hik hip
  have h2 : (((rankedOf p sa).drop (p - ⌈(0.2 : ℚ) * (p : ℚ)⌉₊)).map fun n =>
      [AttrVal.blob (pop n).value]).getD i ([] : List (AttrVal V)) =
      [AttrVal.blob (pop (((rankedOf p sa).drop (p - ⌈(0.2 : ℚ) * (p : ℚ)⌉₊)).getD i 0)).value] :=
    getD_map _ _ i ([] : List (AttrVal V)) 0 (by rw [List.length_drop, hlenR]; omega)
  have h3 : ((rankedOf p sa).drop (p - ⌈(0.2 : ℚ) * (p : ℚ)⌉₊)).getD i 0 =
      (rankedOf p sa).getD (p - ⌈(0.2 : ℚ) * (p : ℚ)⌉₊ + i) 0 :=
    getD_drop _ _ i 0 hdk
  rw [h1, h2, h3]
  rfl

/-- Claim C2: for every pop_size > 1 and per-index (StepCount, Accuracy)
attribute list, the exploit/explore step ranks all indices by ascending
accuracy (the ranking is a permutation of the population, sorted by
accuracy), and returns the dict that maps, for `k = ceil(0.2*pop_size)`, the
i-th worst index (position `i` of the ranking) to the parameter value of the
i-th best-group index (position `pop_size - k + i` of the ranking, i.e. the
i-th member of the top-`k` slice); for pop_size ≤ 1 it returns the empty
dict. -/
theorem exploit_and_or_explore_correct (p : ℕ) (devs : List (ℕ × Device))
    (hW : 1 ≤ devs.length) (hnd : (devs.map Prod.fst).Nodup) {V : Type} [Inhabited V]
    (pop : ℕ → ConvNet V) (sa : List (ℕ × ℚ)) (hlen : sa.length = p) (hp : 1 < p) :
    ((rankedOf p sa).Perm (List.range p) ∧
     (rankedOf p sa).Sorted (fun a b => (sa.getD a (0, 0)).2 ≤ (sa.getD b (0, 0)).2) ∧
     exploit_and_or_explore (mkCluster p devs).1 pop
         (sa.map fun t => [AttrVal.nat t.1, AttrVal.acc t.2]) =
       (List.range ⌈(0.2 : ℚ) * (p : ℚ)⌉₊).map fun i =>
         ((rankedOf p sa).getD i 0,
          (pop ((rankedOf p sa).getD (p - ⌈(0.2 : ℚ) * (p : ℚ)⌉₊ + i) 0)).value)) ∧
    (∀ (q : ℕ) (devs' : List (ℕ × Device)) (pop' : ℕ → ConvNet V)
       (attrs' : List (List (AttrVal V))), q ≤ 1 →
       exploit_and_or_explore (mkCluster q devs').1 pop' attrs' = []) := by
  refine ⟨⟨List.perm_insertionSort _ _, ?_, exploit_eq p devs hW hnd pop sa hlen hp⟩,
    fun q devs' pop' attrs' hq => exploit_empty q devs' pop' attrs' hq⟩
  haveI : IsTotal ℕ (fun a b => (sa.getD a (0, 0)).2 ≤ (sa.getD b (0, 0)).2) :=
    ⟨fun a b => le_total _ _⟩
  haveI : IsTrans ℕ (fun a b => (sa.getD a (0, 0)).2 ≤ (sa.getD b (0, 0)).2) :=
    ⟨fun a b c h1 h2 => le_trans h1 h2⟩
  exact List.sorted_insertionSort _ _

/-- Population and attribute list used by concrete witnesses: ten members
with StepCount 0 and accuracies 0, 1, ..., 9 ascending by index. -/
def saTen : List (ℕ × ℚ) :=
  [(0, 0), (0, 1), (0, 2), (0, 3), (0, 4), (0, 5), (0, 6), (0, 7), (0, 8), (0, 9)]

/-- Concrete witness population matching `saTen`. -/
def popTen : ℕ → ConvNet ℕ := fun n => ⟨0, n, [], (n : ℚ)⟩

/-- Witness for C2 at pop_size 10 over one worker. -/
theorem exploit_and_or_explore_correct_witness :
    (1 ≤ ([(1, none)] : List (ℕ × Device)).length ∧
     (([(1, none)] : List (ℕ × Device)).map Prod.fst).Nodup ∧ saTen.length = 10 ∧ 1 < 10) ∧
    (((rankedOf 10 saTen).Perm (List.range 10) ∧
      (rankedOf 10 saTen).Sorted
        (fun a b => (saTen.getD a (0, 0)).2 ≤ (saTen.getD b (0, 0)).2) ∧
      exploit_and_or_explore (mkCluster 10 [(1, none)]).1 popTen
          (saTen.map fun t => [AttrVal.nat t.1, AttrVal.acc t.2]) =
        (List.range ⌈(0.2 : ℚ) * ((10 : ℕ) : ℚ)⌉₊).map fun i =>
          ((rankedOf 10 saTen).getD i 0,
           (popTen ((rankedOf 10 saTen).getD
             (10 - ⌈(0.2 : ℚ) * ((10 : ℕ) : ℚ)⌉₊ + i) 0)).value)) ∧
     (∀ (q : ℕ) (devs' : List (ℕ × Device)) (pop' : ℕ → ConvNet ℕ)
        (attrs' : List (List (AttrVal ℕ))), q ≤ 1 →
        exploit_and_or_explore (mkCluster q devs').1 pop' attrs' = [])) :=
  ⟨⟨by decide, by decide, by decide, by decide⟩,
   exploit_and_or_explore_correct 10 [(1, none)] (by decide) (by decide) popTen saTen
     (by decide) (by decide)⟩

/-- Claim C10: for pop_size ≥ 2, the worst group (first ceil(0.2*pop_size)
ranked indices) and the best group (ranked indices from floor(0.8*pop_size)
on) are disjoint and of equal size ceil(0.2*pop_size); consequently no
replacement dict entry names its positional source index (the value each
worst index receives comes from a distinct index), the dict's keys are
exactly the worst group (hence duplicate-free), and the dict has exactly
ceil(0.2*pop_size) entries. -/
theorem exploit_groups_correct (p : ℕ) (devs : List (ℕ × Device))
    (hW : 1 ≤ devs.length) (hnd : (devs.map Prod.fst).Nodup) {V : Type} [Inhabited V]
    (pop : ℕ → ConvNet V) (sa : List (ℕ × ℚ)) (hlen : sa.length = p) (hp : 2 ≤ p) :
    ((rankedOf p sa).take ⌈(0.2 : ℚ) * (p : ℚ)⌉₊).length = ⌈(0.2 : ℚ) * (p : ℚ)⌉₊ ∧
    ((rankedOf p sa).drop ⌊(0.8 : ℚ) * (p : ℚ)⌋₊).length = ⌈(0.2 : ℚ) * (p : ℚ)⌉₊ ∧
    ((rankedOf p sa).take ⌈(0.2 : ℚ) * (p : ℚ)⌉₊).Disjoint
      ((rankedOf p sa).drop ⌊(0.8 : ℚ) * (p : ℚ)⌋₊) ∧
    (∀ i, i < ⌈(0.2 : ℚ) * (p : ℚ)⌉₊ →
      ((rankedOf p sa).take ⌈(0.2 : ℚ) * (p : ℚ)⌉₊).getD i 0 ≠
      ((rankedOf p sa).drop ⌊(0.8 : ℚ) * (p : ℚ)⌋₊).getD i 0) ∧
    (exploit_and_or_explore (mkCluster p devs).1 pop
        (sa.map fun t => [AttrVal.nat t.1, AttrVal.acc t.2])).map Prod.fst =
      (rankedOf p sa).take ⌈(0.2 : ℚ) * (p : ℚ)⌉₊ ∧
    ((exploit_and_or_explore (mkCluster p devs).1 pop
        (sa.map fun t => [AttrVal.nat t.1, AttrVal.acc t.2])).map Prod.fst).Nodup ∧
    (exploit_and_or_explore (mkCluster p devs).1 pop
        (sa.map fun t => [AttrVal.nat t.1, AttrVal.acc t.2])).length =
      ⌈(0.2 : ℚ) * (p : ℚ)⌉₊ := by
  have hkval : ⌈(0.2 : ℚ) * (p : ℚ)⌉₊ = (p + 4) / 5 := ceil_fifth p
  have hfval : ⌊(0.8 : ℚ) * (p : ℚ)⌋₊ = 4 * p / 5 := floor_four_fifths p
  have hkle : ⌈(0.2 : ℚ) * (p : ℚ)⌉₊ ≤ p := by omega
  have hKF : ⌈(0.2 : ℚ) * (p : ℚ)⌉₊ ≤ ⌊(0.8 : ℚ) * (p : ℚ)⌋₊ := by omega
  have hFp : ⌊(0.8 : ℚ) * (p : ℚ)⌋₊ = p - ⌈(0.2 : ℚ) * (p : ℚ)⌉₊ := by omega
  have hperm : (rankedOf p sa).Perm (List.range p) := List.perm_insertionSort _ _
  have hlenR : (rankedOf p sa).length = p := by
    rw [rankedOf, List.length_insertionSort, List.length_range]
  have hnodupR : (rankedOf p sa).Nodup := hperm.nodup_iff.mpr (List.nodup_range p)
  have hwl : ((rankedOf p sa).take ⌈(0.2 : ℚ) * (p : ℚ)⌉₊).length =
      ⌈(0.2 : ℚ) * (p : ℚ)⌉₊ := by
    rw [List.length_take, hlenR]
    omega
  have hbl : ((rankedOf p sa).drop ⌊(0.8 : ℚ) * (p : ℚ)⌋₊).length =
      ⌈(0.2 : ℚ) * (p : ℚ)⌉₊ := by
    rw [List.length_drop, hlenR]
    omega
  have hdisj : ((rankedOf p sa).take ⌈(0.2 : ℚ) * (p : ℚ)⌉₊).Disjoint
      ((rankedOf p sa).drop ⌊(0.8 : ℚ) * (p : ℚ)⌋₊) :=
    List.disjoint_take_drop hnodupR hKF
  have hmfst : (exploit_and_or_explore (mkCluster p devs).1 pop
      (sa.map fun t => [AttrVal.nat t.1, AttrVal.acc t.2])).map Prod.fst =
      (rankedOf p sa).take ⌈(0.2 : ℚ) * (p : ℚ)⌉₊ := by
    rw [exploit_eq p devs hW hnd pop sa hlen (by omega), List.map_map]
    apply List.ext_getElem
    · simp [hwl]
    · intro n h1 h2
      have hn : n < ⌈(0.2 : ℚ) * (p : ℚ)⌉₊ := by simpa using h1
      have hnp : n < (rankedOf p sa).length := by omega
      rw [List.getElem_map, List.getElem_range, List.getElem_take]
      show (rankedOf p sa).getD n 0 = (rankedOf p sa)[n]
      rw [List.getD_eq_getElem _ _ hnp]
  refine ⟨hwl, hbl, hdisj, ?_, hmfst, ?_, ?_⟩
  · intro i hi
    have hiw : i < ((rankedOf p sa).take ⌈(0.2 : ℚ) * (p : ℚ)⌉₊).length := by omega
    have hib : i < ((rankedOf p sa).drop ⌊(0.8 : ℚ) * (p : ℚ)⌋₊).length := by omega
    have hwmem : ((rankedOf p sa).take ⌈(0.2 : ℚ) * (p : ℚ)⌉₊).getD i 0 ∈
        (rankedOf p sa).take ⌈(0.2 : ℚ) * (p : ℚ)⌉₊ := by
      rw [List.getD_eq_getElem _ _ hiw]
      exact List.getElem_mem hiw
    have hbmem : ((rankedOf p sa).drop ⌊(0.8 : ℚ) * (p : ℚ)⌋₊).getD i 0 ∈
        (rankedOf p sa).drop ⌊(0.8 : ℚ) * (p : ℚ)⌋₊ := by
      rw [List.getD_eq_getElem _ _ hib]
      exact List.getElem_mem hib
    intro heq
    exact hdisj hwmem (heq ▸ hbmem)
  · rw [hmfst]
    exact List.Nodup.sublist (List.take_sublist _ _) hnodupR
  · rw [exploit_eq p devs hW hnd pop sa hlen (by omega)]
    simp

/-- Witness for C10 at pop_size 10 over one worker. -/
theorem exploit_groups_correct_witness :
    (1 ≤ ([(1, none)] : List (ℕ × Device)).length ∧
     (([(1, none)] : List (ℕ × Device)).map Prod.fst).Nodup ∧ saTen.length = 10 ∧ 2 ≤ 10) ∧
    (((rankedOf 10 saTen).take ⌈(0.2 : ℚ) * ((10 : ℕ) : ℚ)⌉₊).Disjoint
      ((rankedOf 10 saTen).drop ⌊(0.8 : ℚ) * ((10 : ℕ) : ℚ)⌋₊) ∧
     (exploit_and_or_explore (mkCluster 10 [(1, none)]).1 popTen
        (saTen.map fun t => [AttrVal.nat t.1, AttrVal.acc t.2])).length =
       ⌈(0.2 : ℚ) * ((10 : ℕ) : ℚ)⌉₊) :=
  ⟨⟨by decide, by decide, by decide, by decide⟩,
   (exploit_groups_correct 10 [(1, none)] (by decide) (by decide) popTen saTen
      (by decide) (by decide)).2.2.1,
   (exploit_groups_correct 10 [(1, none)] (by decide) (by decide) popTen saTen
      (by decide) (by decide)).2.2.2.2.2.2⟩

/-- A worker's state after its one-time setup message: it owns ConvNets for
the half-open index range [start_num, end_num) (Python keeps them in an
OrderedDict keyed by index; the embedding keeps a function that is only read
and written inside the owned range). -/
structure WorkerState (V : Type) where
  start_num : ℕ
  end_num : ℕ
  graphs : ℕ → ConvNet V

/-- The owned index list in `graphs` iteration order: the OrderedDict is
built over `range(start_num, end_num)`. -/
def WorkerState.ownedNums {V : Type} (ws : WorkerState V) : List ℕ :=
  List.range' ws.start_num (ws.end_num - ws.start_num)

/-- Worker handling of a `GET` instruction (lines 85-89). -/
def handleGet {V : Type} (ws : WorkerState V) (nums : List ℕ)
    (attribute_ids : List Attribute) : ℕ → Option (List (AttrVal V)) :=
  workerReplyDict ws.ownedNums ws.graphs nums attribute_ids

/-- Worker handling of a `COPY_TRAIN_GET` instruction (lines 78-89): first
overwrite and perturb (`set_value` then `explore`) every graph named in the
replacement dict, then train every graph in `graphs.values()` — i.e. every
owned graph — then reply as a `Get` over the instruction's index list, read
from the post-training state. -/
def handleCopyTrainGet {V : Type} (d : Dynamics V) (ws : WorkerState V)
    (nums : List ℕ) (attribute_ids : List Attribute) (new_values : List (ℕ × V)) :
    WorkerState V × (ℕ → Option (List (AttrVal V))) :=
  let g1 := new_values.foldl
    (fun (g : ℕ → ConvNet V) nv =>
      Function.update g nv.1 (ConvNet.explore d ((g nv.1).set_value nv.2))) ws.graphs
  let g2 := ws.ownedNums.foldl
    (fun (g : ℕ → ConvNet V) num => Function.update g num (ConvNet.train d (g num))) g1
  let ws' : WorkerState V := ⟨ws.start_num, ws.end_num, g2⟩
  (ws', handleGet ws' nums attribute_ids)

theorem replace_fold_ne {V : Type} (d : Dynamics V) :
    ∀ (nvs : List (ℕ × V)) (g : ℕ → ConvNet V) (n : ℕ), n ∉ nvs.map Prod.fst →
    (nvs.foldl
      (fun (g : ℕ → ConvNet V) nv =>
        Function.update g nv.1 (ConvNet.explore d ((g nv.1).set_value nv.2))) g) n =
      g n := by
  intro nvs
  induction nvs with
  | nil => intro g n _; rfl
  | cons nv rest ih =>
    intro g n hn
    rw [List.map_cons] at hn
    have h1 : n ≠ nv.1 := fun h => hn (by simp [h])
    have h2 : n ∉ rest.map Prod.fst := fun h => hn (by simp [h])
    rw [List.foldl_cons, ih _ n h2, Function.update_noteq h1]

theorem replace_fold_eq {V : Type} (d : Dynamics V) :
    ∀ (nvs : List (ℕ × V)) (g : ℕ → ConvNet V) (n : ℕ), (nvs.map Prod.fst).Nodup →
    (nvs.foldl
      (fun (g : ℕ → ConvNet V) nv =>
        Function.update g nv.1 (ConvNet.explore d ((g nv.1).set_value nv.2))) g) n =
      (match assocLookup nvs n with
       | some v => ConvNet.explore d ((g n).set_value v)
       | none => g n) := by
  intro nvs
  induction nvs with
  | nil => intro g n _; rfl
  | cons nv rest ih =>
    intro g n hnd
    rw [List.map_cons, List.nodup_cons] at hnd
    rw [List.foldl_cons, assocLookup_cons]
    by_cases hk : nv.1 = n
    · rw [if_pos hk]
      subst hk
      rw [replace_fold_ne d rest _ nv.1 hnd.1, Function.update_same]
    · rw [if_neg hk]
      rw [ih _ n hnd.2, Function.update_noteq (fun h => hk h.symm)]

theorem train_fold_ne {V : Type} (d : Dynamics V) :
    ∀ (nums : List ℕ) (g : ℕ → ConvNet V) (n : ℕ), n ∉ nums →
    (nums.foldl (fun (g : ℕ → ConvNet V) num =>
      Function.update g num (ConvNet.train d (g num))) g) n = g n := by
  intro nums
  induction nums with
  | nil => intro g n _; rfl
  | cons m rest ih =>
    intro g n hn
    have h1 : n ≠ m := fun h => hn (by simp [h])
    have h2 : n ∉ rest := fun h => hn (by simp [h])
    rw [List.foldl_cons, ih _ n h2, Function.update_noteq h1]

theorem train_fold_eq {V : Type} (d : Dynamics V) :
    ∀ (nums : List ℕ) (g : ℕ → ConvNet V) (n : ℕ), nums.Nodup →
    (nums.foldl (fun (g : ℕ → ConvNet V) num =>
      Function.update g num (ConvNet.train d (g num))) g) n =
      if n ∈ nums then ConvNet.train d (g n) else g n := by
  intro nums
  induction nums with
  | nil => intro g n _; simp
  | cons m rest ih =>
    intro g n hnd
    rw [List.nodup_cons] at hnd
    rw [List.foldl_cons]
    by_cases hm : n = m
    · subst hm
      rw [if_pos (by simp), train_fold_ne d rest _ n hnd.1, Function.update_same]
    · rw [ih _ n hnd.2]
      by_cases hr : n ∈ rest
      · rw [if_pos hr, if_pos (by simp [hr]), Function.update_noteq hm]
      · rw [if_neg hr, if_neg (by simp [hm, hr]), Function.update_noteq hm]

/-- Trivial dynamics for concrete runs: training and exploring keep the
parameter value and accuracy unchanged (only the coordination-layer effects —
step count and history — remain). -/
def dTriv : Dynamics ℕ :=
  ⟨fun g => g.value, fun g => g.accuracy, fun g => g.value, fun g => g.value⟩

/-- Claim C4 counterexample: a worker owning indices {0, 1} that receives a
`CopyTrainGet` whose index list is only [0] (and no replacements) still
trains graph 1: its StepCount rises from 0 to 1, although the claim says no
handle outside the instruction's index list receives a training step. -/
theorem copy_train_get_trains_unlisted :
    ((handleCopyTrainGet dTriv ⟨0, 2, fun n => ⟨0, n, [], 0⟩⟩ [0] [] []).1.graphs 1).step_num
      = 1 ∧
    (((⟨0, 2, fun n => ⟨0, n, [], 0⟩⟩ : WorkerState ℕ)).graphs 1).step_num = 0 := by
  constructor
  · rfl
  · rfl

/-- Claim C4 (amended): on a `CopyTrainGet`, the worker first overwrites the
parameter value and invokes explore for exactly the indices present in the
replacement dict, then invokes exactly one training step for every owned
handle — regardless of whether it is listed in the instruction's index
list — and no unowned handle changes; finally it replies exactly as a `Get`
over the instruction's index list against the post-training state. -/
theorem handleCopyTrainGet_correct {V : Type} (d : Dynamics V) (ws : WorkerState V)
    (nums : List ℕ) (attribute_ids : List Attribute) (new_values : List (ℕ × V))
    (hnd : (new_values.map Prod.fst).Nodup)
    (hkeys : ∀ kv ∈ new_values, kv.1 ∈ ws.ownedNums) :
    (∀ n ∈ ws.ownedNums,
      (handleCopyTrainGet d ws nums attribute_ids new_values).1.graphs n =
        ConvNet.train d (match assocLookup new_values n with
          | some v => ConvNet.explore d ((ws.graphs n).set_value v)
          | none => ws.graphs n)) ∧
    (∀ n, n ∉ ws.ownedNums →
      (handleCopyTrainGet d ws nums attribute_ids new_values).1.graphs n = ws.graphs n) ∧
    (handleCopyTrainGet d ws nums attribute_ids new_values).2 =
      handleGet (handleCopyTrainGet d ws nums attribute_ids new_values).1 nums attribute_ids ∧
    (handleCopyTrainGet d ws nums attribute_ids new_values).1.start_num = ws.start_num ∧
    (handleCopyTrainGet d ws nums attribute_ids new_values).1.end_num = ws.end_num := by
  have hown_nd : ws.ownedNums.Nodup := List.nodup_range' _ _
  refine ⟨?_, ?_, rfl, rfl, rfl⟩
  · intro n hn
    show (ws.ownedNums.foldl
        (fun (g : ℕ → ConvNet V) num => Function.update g num (ConvNet.train d (g num)))
        (new_values.foldl
          (fun (g : ℕ → ConvNet V) nv =>
            Function.update g nv.1 (ConvNet.explore d ((g nv.1).set_value nv.2)))
          ws.graphs)) n = _
    rw [train_fold_eq d _ _ n hown_nd, if_pos hn, replace_fold_eq d _ _ n hnd]
  · intro n hn
    have hnk : n ∉ new_values.map Prod.fst := by
      intro hmem
      rcases List.mem_map.mp hmem with ⟨kv, hkv, rfl⟩
      exact hn (hkeys kv hkv)
    show (ws.ownedNums.foldl
        (fun (g : ℕ → ConvNet V) num => Function.update g num (ConvNet.train d (g num)))
        (new_values.foldl
          (fun (g : ℕ → ConvNet V) nv =>
            Function.update g nv.1 (ConvNet.explore d ((g nv.1).set_value nv.2)))
          ws.graphs)) n = _
    rw [train_fold_ne d _ _ n hn, replace_fold_ne d _ _ n hnk]

/-- Witness for the amended C4 at a worker owning {0, 1} with one
replacement for index 0. -/
theorem handleCopyTrainGet_correct_witness :
    ((([((0 : ℕ), (7 : ℕ))].map Prod.fst).Nodup ∧
      (∀ kv ∈ [((0 : ℕ), (7 : ℕ))], kv.1 ∈
        (⟨0, 2, fun n => ⟨0, n, [], 0⟩⟩ : WorkerState ℕ).ownedNums)) ∧
     (handleCopyTrainGet dTriv ⟨0, 2, fun n => ⟨0, n, [], 0⟩⟩ [0, 1]
          [Attribute.STEP_NUM] [(0, 7)]).1.graphs 0 =
        ConvNet.train dTriv (ConvNet.explore dTriv
          (((⟨0, 2, fun n => ⟨0, n, [], 0⟩⟩ : WorkerState ℕ).graphs 0).set_value 7)) ∧
     (handleCopyTrainGet dTriv ⟨0, 2, fun n => ⟨0, n, [], 0⟩⟩ [0, 1]
          [Attribute.STEP_NUM] [(0, 7)]).1.graphs 1 =
        ConvNet.train dTriv ((⟨0, 2, fun n => ⟨0, n, [], 0⟩⟩ : WorkerState ℕ).graphs 1)) :=
  ⟨⟨by decide, by decide⟩,
   (handleCopyTrainGet_correct dTriv ⟨0, 2, fun n => ⟨0, n, [], 0⟩⟩ [0, 1]
     [Attribute.STEP_NUM] [(0, 7)] (by decide) (by decide)).1 0 (by decide),
   (handleCopyTrainGet_correct dTriv ⟨0, 2, fun n => ⟨0, n, [], 0⟩⟩ [0, 1]
     [Attribute.STEP_NUM] [(0, 7)] (by decide) (by decide)).1 1 (by decide)⟩

/-- The `Instruction` enum of `mnist_pbt_sync.py`. -/
inductive Instruction
  | EXIT
  | INIT
  | GET
  | COPY_TRAIN_GET
deriving DecidableEq, Repr

/-- One `COPY_TRAIN_GET` send of a training round: addressee rank, the rank's
owned index list, and the replacement dict restricted to that rank. -/
structure RoundMsg (V : Type) where
  rank : ℕ
  nums : List ℕ
  new_values : List (ℕ × V)
deriving DecidableEq

/-- `rank_new_values = {num: new_values[num] for num in graphs if num in
new_values}` (line 202): the replacement dict restricted to one rank's owned
indices, in owned-index order. -/
def rankNewValues {V : Type} (graphs : List ℕ) (new_values : List (ℕ × V)) : List (ℕ × V) :=
  graphs.filterMap fun num => (assocLookup new_values num).map fun v => (num, v)

/-- The batch of `COPY_TRAIN_GET` sends of one round (lines 201-206). -/
def roundMsgs {V : Type} (cl : ClusterState) (new_values : List (ℕ × V)) :
    List (RoundMsg V) :=
  cl.rank_graphs.map fun rg => ⟨rg.1, rg.2, rankNewValues rg.2 new_values⟩

/-- One rank's worker-side mutation upon its round `COPY_TRAIN_GET` (lines
78-84), acting on the population map: replacements (set_value, explore)
first, then one training step for every owned graph. -/
def workerCopyTrain {V : Type} (d : Dynamics V) (pop : ℕ → ConvNet V) (graphs : List ℕ)
    (rank_new_values : List (ℕ × V)) : ℕ → ConvNet V :=
  let g1 := rank_new_values.foldl
    (fun (g : ℕ → ConvNet V) nv =>
      Function.update g nv.1 (ConvNet.explore d ((g nv.1).set_value nv.2))) pop
  graphs.foldl (fun (g : ℕ → ConvNet V) num => Function.update g num (ConvNet.train d (g num))) g1

/-- The whole population after one round: every rank applies its restricted
replacement dict and trains its owned graphs.  The ranks own disjoint index
ranges, so the sequential fold over ranks equals the workers' concurrent
execution. -/
def applyRound {V : Type} (d : Dynamics V) (cl : ClusterState) (new_values : List (ℕ × V))
    (pop : ℕ → ConvNet V) : ℕ → ConvNet V :=
  cl.rank_graphs.foldl
    (fun pp rg => workerCopyTrain d pp rg.2 (rankNewValues rg.2 new_values)) pop

/-- The merged reply dict of one round's `COPY_TRAIN_GET` replies (lines
207-208), read from the post-round population. -/
def roundReplies {V : Type} (cl : ClusterState) (pop' : ℕ → ConvNet V)
    (attribute_ids : List Attribute) : ℕ → Option (List (AttrVal V)) :=
  dictMerge (cl.rank_graphs.map fun rg =>
    workerReplyDict (clusterOwned cl rg.1) pop' rg.2 attribute_ids)

/-- `graph_attributes[0]`, the step count of one reply tuple. -/
def attrStep {V : Type} (t : List (AttrVal V)) : ℕ :=
  (t.getD 0 (AttrVal.nat 0)).getNat

/-- The `keep_training` flag of one `Cluster.train` round (lines 186-191):
some index still needs training. -/
def keepTrainingB {V : Type} (attributes : List (List (AttrVal V)))
    (until_step_num : ℕ) : Bool :=
  attributes.any fun t => attrStep t < until_step_num

/-- Whether the scan of lines 188-196 reaches the exploit branch: some index
needs training and has already trained at least one step. -/
def doExploitB {V : Type} (attributes : List (List (AttrVal V))) (until_step_num : ℕ) : Bool :=
  attributes.any fun t => decide (attrStep t < until_step_num ∧ 0 < attrStep t)

/-- The `while True` loop of `Cluster.train` (lines 185-212), with explicit
fuel standing for the number of rounds the loop is still allowed to run
(returning `none` when the fuel runs out lets termination be stated as a
theorem rather than assumed): read the carried attribute snapshot, stop when
every index reached the target; otherwise compute the replacements (empty
unless some index with positive StepCount still needs training), send one
`COPY_TRAIN_GET` per rank, apply the round, and merge the replies into the
next snapshot.  Returns the final population and the per-round send trace. -/
def trainLoop {V : Type} [Inhabited V] (d : Dynamics V) (cl : ClusterState)
    (until_step_num : ℕ) :
    ℕ → (ℕ → ConvNet V) → List (List (AttrVal V)) →
    Option ((ℕ → ConvNet V) × List (List (RoundMsg V)))
  | fuel, pop, attributes =>
    if keepTrainingB attributes until_step_num then
      match fuel with
      | 0 => none
      | fuel + 1 =>
        let new_values := if doExploitB attributes until_step_num
          then exploit_and_or_explore cl pop attributes else []
        let msgs := roundMsgs cl new_values
        let pop' := applyRound d cl new_values pop
        let attributes' := (List.range cl.pop_size).map fun n =>
          (roundReplies cl pop' [Attribute.STEP_NUM, Attribute.ACCURACY] n).getD []
        match trainLoop d cl until_step_num fuel pop' attributes' with
        | none => none
        | some (popF, trace) => some (popF, msgs :: trace)
    else some (pop, [])

/-- `Cluster.train` of `mnist_pbt_sync.py`: read the initial
(StepCount, Accuracy) snapshot through `get_attributes`, then run training
rounds until every index reaches the target step count. -/
def ClusterState.train {V : Type} [Inhabited V] (d : Dynamics V) (cl : ClusterState)
    (until_step_num fuel : ℕ) (pop : ℕ → ConvNet V) :
    Option ((ℕ → ConvNet V) × List (List (RoundMsg V))) :=
  trainLoop d cl until_step_num fuel pop
    (get_attributes cl pop [Attribute.STEP_NUM, Attribute.ACCURACY] none)

/-- The true (StepCount, Accuracy) snapshot of a population of size `p`. -/
def readAttrs {V : Type} (p : ℕ) (pop : ℕ → ConvNet V) : List (List (AttrVal V)) :=
  (List.range p).map fun n => [AttrVal.nat (pop n).step_num, AttrVal.acc (pop n).accuracy]

theorem rankNewValues_map_fst {V : Type} (graphs : List ℕ) (new_values : List (ℕ × V)) :
    (rankNewValues graphs new_values).map Prod.fst =
      graphs.filter fun num => (assocLookup new_values num).isSome := by
  induction graphs with
  | nil => rfl
  | cons g rest ih =>
    rw [rankNewValues, List.filterMap_cons]
    cases h : assocLookup new_values g with
    | none =>
      rw [List.filter_cons]
      simp only [h, Option.map_none', Option.isSome_none, Bool.false_eq_true, if_false]
      exact ih
    | some v =>
      rw [List.filter_cons]
      simp only [h, Option.map_some', Option.isSome_some, if_true, List.map_cons]
      exact congrArg (List.cons g) ih

theorem rankNewValues_keys_mem {V : Type} (graphs : List ℕ) (new_values : List (ℕ × V))
    {k : ℕ} (hk : k ∈ (rankNewValues graphs new_values).map Prod.fst) : k ∈ graphs := by
  rw [rankNewValues_map_fst] at hk
  exact (List.mem_filter.mp hk).1

theorem replace_fold_step {V : Type} (d : Dynamics V) :
    ∀ (nvs : List (ℕ × V)) (g : ℕ → ConvNet V) (n : ℕ),
    ((nvs.foldl
      (fun (g : ℕ → ConvNet V) nv =>
        Function.update g nv.1 (ConvNet.explore d ((g nv.1).set_value nv.2))) g) n).step_num =
      (g n).step_num := by
  intro nvs
  induction nvs with
  | nil => intro g n; rfl
  | cons nv rest ih =>
    intro g n
    rw [List.foldl_cons, ih]
    by_cases h : n = nv.1
    · subst h
      rw [Function.update_same]
      rfl
    · rw [Function.update_noteq h]

theorem workerCopyTrain_not_mem {V : Type} (d : Dynamics V) (pop : ℕ → ConvNet V)
    (graphs : List ℕ) (rnv : List (ℕ × V))
    (hkeys : ∀ k ∈ rnv.map Prod.fst, k ∈ graphs) {n : ℕ} (hn : n ∉ graphs) :
    workerCopyTrain d pop graphs rnv n = pop n := by
  unfold workerCopyTrain
  rw [train_fold_ne d _ _ n hn, replace_fold_ne d _ _ n (fun h => hn (hkeys n h))]

theorem workerCopyTrain_step_mem {V : Type} (d : Dynamics V) (pop : ℕ → ConvNet V)
    (graphs : List ℕ) (rnv : List (ℕ × V)) (hnd : graphs.Nodup) {n : ℕ} (hn : n ∈ graphs) :
    (workerCopyTrain d pop graphs rnv n).step_num = (pop n).step_num + 1 := by
  unfold workerCopyTrain
  rw [train_fold_eq d _ _ n hnd, if_pos hn]
  show (ConvNet.train d _).step_num = _
  rw [ConvNet.train]
  rw [replace_fold_step d rnv pop n]

theorem applyRound_go {V : Type} (d : Dynamics V) (nv : List (ℕ × V)) :
    ∀ (entries : List (ℕ × List ℕ)) (pp : ℕ → ConvNet V) (n : ℕ),
    (∀ e ∈ entries, e.2.Nodup) →
    List.Pairwise (fun e1 e2 => ∀ m ∈ e1.2, m ∉ e2.2) entries →
    ((∀ e ∈ entries, n ∉ e.2) →
      (entries.foldl (fun pp rg => workerCopyTrain d pp rg.2 (rankNewValues rg.2 nv)) pp) n =
        pp n) ∧
    ((∃ e ∈ entries, n ∈ e.2) →
      ((entries.foldl (fun pp rg => workerCopyTrain d pp rg.2 (rankNewValues rg.2 nv)) pp) n
        ).step_num = (pp n).step_num + 1) := by
  intro entries
  induction entries with
  | nil =>
    intro pp n _ _
    exact ⟨fun _ => rfl, fun h => by simp at h⟩
  | cons e rest ih =>
    intro pp n hnd hpw
    rw [List.pairwise_cons] at hpw
    have hnd_rest : ∀ e' ∈ rest, e'.2.Nodup := fun e' he' => hnd e' (by simp [he'])
    have ihp := ih (workerCopyTrain d pp e.2 (rankNewValues e.2 nv)) n hnd_rest hpw.2
    constructor
    · intro hall
      have hne : n ∉ e.2 := hall e (by simp)
      rw [List.foldl_cons, ihp.1 (fun e' he' => hall e' (by simp [he']))]
      exact workerCopyTrain_not_mem d pp e.2 _ (fun k hk => rankNewValues_keys_mem _ _ hk) hne
    · intro hex
      rw [List.foldl_cons]
      by_cases hin : n ∈ e.2
      · have hrest : ∀ e' ∈ rest, n ∉ e'.2 := fun e' he' => hpw.1 e' he' n hin
        rw [ihp.1 hrest]
        exact workerCopyTrain_step_mem d pp e.2 _ (hnd e (by simp)) hin
      · have hrest : ∃ e' ∈ rest, n ∈ e'.2 := by
          rcases hex with ⟨e', he', hne'⟩
          rcases List.mem_cons.mp he' with rfl | hmem
          · exact absurd hne' hin
          · exact ⟨e', hmem, hne'⟩
        rw [ihp.2 hrest,
          workerCopyTrain_not_mem d pp e.2 _ (fun k hk => rankNewValues_keys_mem _ _ hk) hin]

theorem specRankGraphs_mem_ge (p W : ℕ) :
    ∀ (l : List (ℕ × Device)) (i : ℕ), ∀ e ∈ specRankGraphs p W i l, ∀ m ∈ e.2,
    partStart p W i ≤ m := by
  intro l
  induction l with
  | nil => intro i e he; simp [specRankGraphs] at he
  | cons rd rest ih =>
    intro i e he m hm
    rw [specRankGraphs] at he
    rcases List.mem_cons.mp he with rfl | hmem
    · exact (List.mem_range'_1.mp hm).1
    · have := ih (i + 1) e hmem m hm
      have hmono : partStart p W i ≤ partStart p W (i + 1) := partStart_mono p W (by omega)
      omega

theorem specRankGraphs_nodup_each (p W : ℕ) :
    ∀ (l : List (ℕ × Device)) (i : ℕ), ∀ e ∈ specRankGraphs p W i l, e.2.Nodup := by
  intro l
  induction l with
  | nil => intro i e he; simp [specRankGraphs] at he
  | cons rd rest ih =>
    intro i e he
    rw [specRankGraphs] at he
    rcases List.mem_cons.mp he with rfl | hmem
    · exact List.nodup_range' _ _
    · exact ih (i + 1) e hmem

theorem specRankGraphs_pairwise (p W : ℕ) :
    ∀ (l : List (ℕ × Device)) (i : ℕ),
    List.Pairwise (fun e1 e2 => ∀ m ∈ e1.2, m ∉ e2.2) (specRankGraphs p W i l) := by
  intro l
  induction l with
  | nil => intro i; simp [specRankGraphs]
  | cons rd rest ih =>
    intro i
    rw [specRankGraphs, List.pairwise_cons]
    refine ⟨?_, ih (i + 1)⟩
    intro e' he' m hm hm'
    have h1 : m < partStart p W (i + 1) := by
      have := (List.mem_range'_1.mp hm).2
      have hmono : partStart p W i ≤ partStart p W (i + 1) := partStart_mono p W (by omega)
      omega
    have h2 : partStart p W (i + 1) ≤ m := specRankGraphs_mem_ge p W rest (i + 1) e' he' m hm'
    omega

/-- Every round increments every population index's StepCount by exactly
one, whatever the replacement dict is. -/
theorem applyRound_step (p : ℕ) (devs : List (ℕ × Device)) (hW : 1 ≤ devs.length)
    {V : Type} (d : Dynamics V) (nv : List (ℕ × V)) (pop : ℕ → ConvNet V) {n : ℕ}
    (hn : n < p) :
    ((applyRound d (mkCluster p devs).1 nv pop) n).step_num = (pop n).step_num + 1 := by
  obtain ⟨j, hj, h1, h2⟩ := exists_segment (partStart p devs.length) devs.length n
    (fun i j h => partStart_mono p devs.length h) (by simp)
    (by rw [partStart_W p devs.length hW]; exact hn)
  have hmem : ((devs.getD j (0, none)).1,
      List.range' (partStart p devs.length j)
        (partStart p devs.length (j + 1) - partStart p devs.length j)) ∈
      (mkCluster p devs).1.rank_graphs := by
    rw [mkCluster_eq p devs hW]
    have := specRankGraphs_mem p devs.length devs 0 j hj
    simpa using this
  have hin : n ∈ List.range' (partStart p devs.length j)
      (partStart p devs.length (j + 1) - partStart p devs.length j) := by
    rw [List.mem_range'_1]
    have := partStart_mono p devs.length (Nat.le_succ j)
    omega
  unfold applyRound
  have hnd : ∀ e ∈ (mkCluster p devs).1.rank_graphs, e.2.Nodup := by
    rw [mkCluster_eq p devs hW]
    exact specRankGraphs_nodup_each p devs.length devs 0
  have hpw : List.Pairwise (fun e1 e2 => ∀ m ∈ e1.2, m ∉ e2.2)
      (mkCluster p devs).1.rank_graphs := by
    rw [mkCluster_eq p devs hW]
    exact specRankGraphs_pairwise p devs.length devs 0
  exact (applyRound_go d nv (mkCluster p devs).1.rank_graphs pop n hnd hpw).2
    ⟨_, hmem, hin⟩

/-- The merged round replies reproduce the true post-round snapshot. -/
theorem roundReplies_eq (p : ℕ) (devs : List (ℕ × Device)) (hW : 1 ≤ devs.length)
    (hnd : (devs.map Prod.fst).Nodup) {V : Type} (pop' : ℕ → ConvNet V) :
    ((List.range p).map fun n =>
      (roundReplies (mkCluster p devs).1 pop' [Attribute.STEP_NUM, Attribute.ACCURACY] n
        ).getD []) = readAttrs p pop' := by
  unfold readAttrs
  apply List.map_congr_left
  intro n hn
  unfold roundReplies
  rw [dictMerge_full p devs hW hnd pop' [Attribute.STEP_NUM, Attribute.ACCURACY]
    (List.mem_range.mp hn)]
  rfl

theorem trainLoop_spec (p : ℕ) (devs : List (ℕ × Device)) (hW : 1 ≤ devs.length)
    (hnd : (devs.map Prod.fst).Nodup) {V : Type} [Inhabited V] (d : Dynamics V) (N : ℕ)
    (hp : 1 ≤ p) :
    ∀ (j : ℕ) (pop : ℕ → ConvNet V), j ≤ N →
    (∀ n, n < p → (pop n).step_num = N - j) →
    ∃ popF trace,
      trainLoop d (mkCluster p devs).1 N j pop (readAttrs p pop) = some (popF, trace) ∧
      trace.length = j ∧ (∀ n, n < p → (popF n).step_num = N) := by
  intro j
  induction j with
  | zero =>
    intro pop hj hstep
    have hkt : keepTrainingB (readAttrs p pop) N = false := by
      rw [keepTrainingB, List.any_eq_false]
      intro t ht
      simp only [readAttrs, List.mem_map, List.mem_range] at ht
      obtain ⟨n, hn, rfl⟩ := ht
      have hs := hstep n hn
      simp only [attrStep, List.getD_cons_zero, AttrVal.getNat, decide_eq_true_eq]
      omega
    refine ⟨pop, [], ?_, rfl, fun n hn => by have := hstep n hn; omega⟩
    rw [trainLoop, if_neg (by rw [hkt]; exact Bool.false_ne_true)]
  | succ j ih =>
    intro pop hj hstep
    have hkt : keepTrainingB (readAttrs p pop) N = true := by
      rw [keepTrainingB, List.any_eq_true]
      refine ⟨[AttrVal.nat (pop 0).step_num, AttrVal.acc (pop 0).accuracy], ?_, ?_⟩
      · simp only [readAttrs, List.mem_map, List.mem_range]
        exact ⟨0, hp, rfl⟩
      · have := hstep 0 hp
        simp only [attrStep, List.getD_cons_zero, AttrVal.getNat, decide_eq_true_eq]
        omega
    rw [trainLoop, if_pos hkt]
    have hstep' : ∀ n, n < p →
        ((applyRound d (mkCluster p devs).1
          (if doExploitB (readAttrs p pop) N then
            exploit_and_or_explore (mkCluster p devs).1 pop (readAttrs p pop) else []) pop) n
          ).step_num = N - j := by
      intro n hn
      rw [applyRound_step p devs hW d _ pop hn, hstep n hn]
      omega
    obtain ⟨popF, trace, hloop, hlen, hfin⟩ := ih _ (by omega) hstep'
    refine ⟨popF, roundMsgs (mkCluster p devs).1
      (if doExploitB (readAttrs p pop) N then
        exploit_and_or_explore (mkCluster p devs).1 pop (readAttrs p pop) else []) :: trace,
      ?_, by simp [hlen], hfin⟩
    have hattrs' : ((List.range (mkCluster p devs).1.pop_size).map fun n =>
        (roundReplies (mkCluster p devs).1
          (applyRound d (mkCluster p devs).1
            (if doExploitB (readAttrs p pop) N then
              exploit_and_or_explore (mkCluster p devs).1 pop (readAttrs p pop) else []) pop)
          [Attribute.STEP_NUM, Attribute.ACCURACY] n).getD []) =
        readAttrs p (applyRound d (mkCluster p devs).1
          (if doExploitB (readAttrs p pop) N then
            exploit_and_or_explore (mkCluster p devs).1 pop (readAttrs p pop) else []) pop) := by
      rw [mkCluster_pop_size]
      exact roundReplies_eq p devs hW hnd _
    simp only [hattrs', hloop]

/-- Claim C3 (amended to populations of size ≥ 1): starting from StepCount 0
everywhere, `Cluster.train(N)` terminates within `N` rounds of fuel, the
send trace has exactly `N` rounds (one `COPY_TRAIN_GET` per worker per
round, each worker training each owned index once per round), and every
index finishes with StepCount exactly `N` (hence ≥ N). -/
theorem train_correct (p : ℕ) (devs : List (ℕ × Device)) (hW : 1 ≤ devs.length)
    (hnd : (devs.map Prod.fst).Nodup) {V : Type} [Inhabited V] (d : Dynamics V)
    (pop : ℕ → ConvNet V) (N : ℕ) (hp : 1 ≤ p)
    (hz : ∀ n, n < p → (pop n).step_num = 0) :
    ∃ popF trace,
      ClusterState.train d (mkCluster p devs).1 N N pop = some (popF, trace) ∧
      trace.length = N ∧ (∀ n, n < p → (popF n).step_num = N) := by
  have hga : get_attributes (mkCluster p devs).1 pop
      [Attribute.STEP_NUM, Attribute.ACCURACY] none = readAttrs p pop := by
    rw [(get_attributes_correct p devs hW hnd pop
      [Attribute.STEP_NUM, Attribute.ACCURACY] [] (by simp)).2]
    rfl
  rw [ClusterState.train, hga]
  exact trainLoop_spec p devs hW hnd d N hp N pop (le_refl N)
    (by intro n hn; rw [hz n hn]; omega)

/-- Concrete population of three members, all at StepCount 0. -/
def popZero3 : ℕ → ConvNet ℕ := fun n => ⟨0, n, [], 0⟩

/-- Witness for the amended C3: three members over two workers, target 1. -/
theorem train_correct_witness :
    (1 ≤ ([(1, none), (2, none)] : List (ℕ × Device)).length ∧
     (([(1, none), (2, none)] : List (ℕ × Device)).map Prod.fst).Nodup ∧
     1 ≤ 3 ∧ (∀ n, n < 3 → (popZero3 n).step_num = 0)) ∧
    (∃ popF trace,
      ClusterState.train dTriv (mkCluster 3 [(1, none), (2, none)]).1 1 1 popZero3 =
        some (popF, trace) ∧
      trace.length = 1 ∧ (∀ n, n < 3 → (popF n).step_num = 1)) :=
  ⟨⟨by decide, by decide, by decide, by decide⟩,
   train_correct 3 [(1, none), (2, none)] (by decide) (by decide) dTriv popZero3 1
     (by decide) (by decide)⟩

/-- Claim C3 counterexample: on the empty population (pop_size 0, which the
constructor accepts), `train(1)` returns after zero rounds — not the one
round per target step the claim demands — because no index exists to be
below the target. -/
theorem train_pop_zero_rounds :
    ClusterState.train dTriv (mkCluster 0 [(1, none)]).1 1 1 (fun _ => ⟨0, 0, [], 0⟩) =
      some (fun _ => ⟨0, 0, [], 0⟩, []) ∧
    ([] : List (List (RoundMsg ℕ))).length ≠ 1 := by
  exact ⟨rfl, by decide⟩

/-- The concrete value of the two-worker three-member construction: worker 1
owns {0, 1}, worker 2 owns {2}. -/
theorem mkCluster3_eq :
    (mkCluster 3 [(1, none), (2, none)]).1 =
      ⟨3, [(1, [0, 1]), (2, [2])], [1, 1, 2]⟩ := by
  rw [mkCluster_eq 3 [(1, none), (2, none)] (by decide)]
  have h0 : partStart 3 2 0 = 0 := by norm_num [partStart]
  have h1 : partStart 3 2 1 = 2 := by
    rw [partStart]
    norm_num
    rw [show ⌈(3 : ℚ) / 2⌉ = (2 : ℤ) from by
      rw [Int.ceil_eq_iff]
      constructor
      · norm_num
      · norm_num]
    rfl
  have h2 : partStart 3 2 2 = 3 := by
    rw [partStart]
    norm_num
    decide
  simp [specRankGraphs, specGraphRanks, h0, h1, h2]
  decide

theorem rankNewValues_nil {V : Type} (graphs : List ℕ) :
    rankNewValues graphs ([] : List (ℕ × V)) = [] := by
  induction graphs with
  | nil => rfl
  | cons g rest ih => rw [rankNewValues, List.filterMap_cons]; exact ih

/-- Claim C7: in any round where every population index has StepCount 0, the
exploit branch is never reached (so the round's replacement dict is empty and
every `COPY_TRAIN_GET` of a round with an empty dict carries an empty
replacement dict); concretely, with 2 workers and population 3 (worker 1
owns {0, 1}, worker 2 owns {2}), `train(1)` performs exactly one round,
sending one `COPY_TRAIN_GET` with an empty replacement dict to each worker,
after which all three StepCounts equal 1. -/
theorem train_first_round_no_exploit :
    (∀ (A : Type) (attributes : List (List (AttrVal A))) (N : ℕ),
      (∀ t ∈ attributes, attrStep t = 0) → doExploitB attributes N = false) ∧
    (∀ (A : Type) (cl : ClusterState) (msg : RoundMsg A),
      msg ∈ roundMsgs cl ([] : List (ℕ × A)) → msg.new_values = []) ∧
    (∃ popF : ℕ → ConvNet ℕ,
      ClusterState.train dTriv (mkCluster 3 [(1, none), (2, none)]).1 1 1 popZero3 =
        some (popF, [[⟨1, [0, 1], []⟩, ⟨2, [2], []⟩]]) ∧
      (popF 0).step_num = 1 ∧ (popF 1).step_num = 1 ∧ (popF 2).step_num = 1) := by
  refine ⟨?_, ?_, ?_⟩
  · intro A attributes N hz
    rw [doExploitB, List.any_eq_false]
    intro t ht
    rw [hz t ht]
    simp
  · intro A cl msg hmsg
    rcases List.mem_map.mp hmsg with ⟨rg, _, rfl⟩
    exact rankNewValues_nil rg.2
  · rw [mkCluster3_eq]
    exact ⟨_, rfl, rfl, rfl, rfl⟩

/-- Witness for C7: the general conjuncts instantiated at one concrete
round (a singleton all-zero snapshot, and worker 1's round message). -/
theorem train_first_round_no_exploit_witness :
    ((∀ t ∈ ([[AttrVal.nat 0, AttrVal.acc 0]] : List (List (AttrVal ℚ))),
        attrStep t = (0 : ℕ)) ∧
      doExploitB ([[AttrVal.nat 0, AttrVal.acc 0]] : List (List (AttrVal ℚ))) 1 = false) ∧
    ((⟨1, [0, 1], []⟩ : RoundMsg ℕ) ∈
        roundMsgs ⟨3, [(1, [0, 1]), (2, [2])], [1, 1, 2]⟩ ([] : List (ℕ × ℕ)) ∧
      (⟨1, [0, 1], []⟩ : RoundMsg ℕ).new_values = []) :=
  ⟨⟨by decide,
    train_first_round_no_exploit.1 ℚ
      ([[AttrVal.nat 0, AttrVal.acc 0]] : List (List (AttrVal ℚ))) 1 (by decide)⟩,
   ⟨by decide,
    train_first_round_no_exploit.2.1 ℕ ⟨3, [(1, [0, 1]), (2, [2])], [1, 1, 2]⟩
      ⟨1, [0, 1], []⟩ (by decide)⟩⟩

/-- `Cluster.__init__` with its Python failure behaviour made explicit:
`pop_size / len(rank_devices)` raises `ZeroDivisionError` when the worker
mapping is empty — before any message is sent (rational division by zero is
total in the embedding, so the exception is modelled as an explicit check at
the point of the division).  No other input is rejected: any `pop_size`,
including 0, constructs a cluster and sends one setup message per worker. -/
def mkClusterChecked (pop_size : ℕ) (rank_devices : List (ℕ × Device)) :
    Except String (ClusterState × List SetupMsg) :=
  if rank_devices.length = 0 then Except.error "ZeroDivisionError: division by zero"
  else Except.ok (mkCluster pop_size rank_devices)

/-- Claim C8 counterexample: constructing a Cluster with pop_size 0 (below
1) and one worker does not fail: it succeeds and still sends one setup
message (with the empty range [0, 0)) to the worker. -/
theorem mkCluster_pop_zero_no_failure :
    mkClusterChecked 0 [(1, none)] = Except.ok (mkCluster 0 [(1, none)]) ∧
    (mkCluster 0 [(1, none)]).2.length = 1 := by
  constructor
  · rfl
  · rw [mkCluster_eq 0 [(1, none)] (by decide)]
    simp

/-- Claim C8 (amended): only an empty worker mapping fails fast — with a
`ZeroDivisionError` raised at the share computation, before any message is
sent (the error branch carries no messages); a population size below 1 is
not rejected: construction succeeds for every pop_size whenever at least
one worker exists. -/
theorem mkClusterChecked_correct (pop_size : ℕ) (rank_devices : List (ℕ × Device)) :
    (rank_devices = [] →
      mkClusterChecked pop_size rank_devices =
        Except.error "ZeroDivisionError: division by zero") ∧
    (rank_devices ≠ [] →
      mkClusterChecked pop_size rank_devices =
        Except.ok (mkCluster pop_size rank_devices)) := by
  constructor
  · intro h
    subst h
    rfl
  · intro h
    rw [mkClusterChecked, if_neg (by simpa using h)]

/-- Witness for the amended C8 at both branches. -/
theorem mkClusterChecked_correct_witness :
    (([] : List (ℕ × Device)) = [] →
      mkClusterChecked 5 ([] : List (ℕ × Device)) =
        Except.error "ZeroDivisionError: division by zero") ∧
    (([(1, none)] : List (ℕ × Device)) ≠ [] →
      mkClusterChecked 5 [(1, none)] = Except.ok (mkCluster 5 [(1, none)])) :=
  ⟨(mkClusterChecked_correct 5 ([] : List (ℕ × Device))).1,
   (mkClusterChecked_correct 5 [(1, none)]).2⟩

/-- `Cluster.exit_workers` of `mnist_pbt_sync.py`: isend `(Instruction.EXIT,)`
to every worker rank, then a joined wait.  Nothing else happens: the method
sets no flag and the Cluster's state is returned unchanged. -/
def exit_workers (cl : ClusterState) : ClusterState × List (ℕ × Instruction) :=
  (cl, cl.rank_graphs.map fun rg => (rg.1, Instruction.EXIT))

/-- `Cluster.initialize_variables` of `mnist_pbt_sync.py`, reduced to its
outbound sends: isend `(Instruction.INIT,)` to every worker rank, joined
wait; the Cluster's state is unchanged. -/
def init_variables (cl : ClusterState) : ClusterState × List (ℕ × Instruction) :=
  (cl, cl.rank_graphs.map fun rg => (rg.1, Instruction.INIT))

/-- Claim C9 counterexample: after `exit_workers` on a concretely
constructed Cluster (3 members, workers 1 and 2), the Cluster state is
bit-for-bit unchanged — no closed flag exists — and a subsequent
`initialize_variables` is not rejected: it silently sends an Init
instruction to both (now dead) workers. -/
theorem exit_workers_no_guard :
    (exit_workers (mkCluster 3 [(1, none), (2, none)]).1).1 =
      (mkCluster 3 [(1, none), (2, none)]).1 ∧
    (init_variables (exit_workers (mkCluster 3 [(1, none), (2, none)]).1).1).2 =
      [(1, Instruction.INIT), (2, Instruction.INIT)] := by
  constructor
  · rfl
  · rw [mkCluster3_eq]
    rfl

/-- Claim C9 (amended): `exit_workers` sends `Exit` to every worker in the
routing table and leaves the Cluster state unchanged; no guard or flag is
recorded, so every subsequent Coordinator call behaves exactly as before the
shutdown — in particular the Init broadcast still sends to every worker
rather than being rejected. -/
theorem exit_workers_correct (cl : ClusterState) :
    (exit_workers cl).2 = cl.rank_graphs.map (fun rg => (rg.1, Instruction.EXIT)) ∧
    (exit_workers cl).2.length = cl.rank_graphs.length ∧
    (exit_workers cl).1 = cl ∧
    init_variables (exit_workers cl).1 = init_variables cl ∧
    (init_variables (exit_workers cl).1).2.length = cl.rank_graphs.length := by
  refine ⟨rfl, by simp [exit_workers], rfl, rfl, by simp [exit_workers, init_variables]⟩

end DistributedTF
